import Mathlib

/-!
Verification development for the GitHub ingestion and analytics engine of the
`dubhacks2025` repository.

The engine lives in `src/resolvers/github_retrieve.js` (paginated fetchers for
pull requests and issues, a recursive markdown tree walker, and a concurrent
aggregator) and `src/resolvers/openai.js` (three pure analytics functions over
the fetched document collections).  An earlier revision of the fetcher module
is also present in the repository (the unnamed source part 002); it differs
from the current one only in how the `repository` metadata field is assembled,
and is embedded here as the `Legacy` variants.

Modelling conventions
* JavaScript strings are Lean `String`s; operations the code uses
  (`toLowerCase`, `trim`, `endsWith`, regular-expression matching) are
  re-implemented over the character list `String.data` so that every
  definition evaluates inside the kernel.
* `new Date(s)` parsing is environmental; a raw date value is modelled as a
  `RawDate` pairing the raw string with the (oracle) result of the parse in
  epoch milliseconds.  `toDate` consults that oracle exactly the way the
  source consults `Date`.
* JavaScript objects with optional keys become structures of `Option` fields;
  `x || y` on strings is `jsOr` (both `undefined` and `""` are falsy).
* The network is an oracle passed as data: a list fetcher receives the list of
  pages the endpoint would return in order (pages past the end are empty), the
  tree walker receives the directory tree.  Each model additionally reports
  how many page requests it issued, or a trace of fetch events, so that
  "no further page is fetched" claims are statable.
* Asynchrony: the engine's `Promise.all` join is modelled by its observable
  outcome on the three pipeline results (`Except` values); bounded concurrency
  and retry (`AsyncCaller`) do not change any value the claims mention and are
  not modelled.
-/

namespace GH

/-- JavaScript string truthiness: `undefined`/`null` and `""` are falsy. -/
def jsTruthy (s : Option String) : Bool :=
  match s with
  | none => false
  | some v => !(v = "")

/-- JavaScript `a || b` on (possibly absent) strings. -/
def jsOr (a b : Option String) : Option String :=
  if jsTruthy a then a else b

/-- JavaScript `a || ''`: force a (possibly absent) string to a string. -/
def jsStr (a : Option String) : String :=
  match a with
  | none => ""
  | some s => s

/-- First truthy value of a chain `a || b || ... || null`. -/
def firstTruthy : List (Option String) → Option String
  | [] => none
  | a :: rest => if jsTruthy a then a else firstTruthy rest

/-- `String.toLowerCase`, re-implemented over the character list so that it
evaluates in the kernel. -/
def lowerStr (s : String) : String :=
  String.mk (s.data.map Char.toLower)

/-- Whitespace test used by `trim` (the characters relevant to this code). -/
def isWsChar (c : Char) : Bool :=
  c = ' ' || c = '\t' || c = '\n' || c = '\r'

/-- `String.trim`, re-implemented over the character list. -/
def trimStr (s : String) : String :=
  String.mk (((s.data.dropWhile isWsChar).reverse.dropWhile isWsChar).reverse)

/-- `s.endsWith suffix`, re-implemented over the character list. -/
def endsWithStr (s suffix : String) : Bool :=
  suffix.data.isSuffixOf s.data

/-- `hay.includes(needle)` over character lists. -/
def containsSub (needle : List Char) : List Char → Bool
  | [] => needle.isEmpty
  | c :: rest => needle.isPrefixOf (c :: rest) || containsSub needle rest

/-- A raw date value as delivered by the GitHub API: the raw string together
with the oracle result of `new Date(raw)` in epoch milliseconds (`none` when
the parse yields `NaN`). -/
structure RawDate where
  raw : String
  parsed : Option Int
deriving DecidableEq

/-- `toDate` from `openai.js`: falsy input (absent or `""`) and unparseable
strings become `null`; otherwise the parsed `Date`, as epoch milliseconds. -/
def toDate (value : Option RawDate) : Option Int :=
  match value with
  | none => none
  | some d => if d.raw = "" then none else d.parsed

def millisecondsPerDay : Int := 1000 * 60 * 60 * 24

/-- `differenceInDays` from `openai.js`: `Math.floor((ref - target) / day)`,
`null` when the target date is `null` (a `Date` reference is always truthy). -/
def differenceInDays (targetDate : Option Int) (referenceDate : Int) : Option Int :=
  match targetDate with
  | none => none
  | some t => some (Int.fdiv (referenceDate - t) millisecondsPerDay)

/-- The metadata record attached to a document.  Every field the three
fetchers ever set appears here; analytics treat all fields as optional. -/
structure GHMeta where
  source : Option String := none
  type : Option String := none
  number : Option Int := none
  state : Option String := none
  author : Option String := none
  labels : Option (List String) := none
  created_at : Option RawDate := none
  updated_at : Option RawDate := none
  repository : Option String := none
  path : Option String := none
  name : Option String := none
  size : Option Nat := none
  sha : Option String := none
  branch : Option String := none
deriving DecidableEq

/-- A document-like object as consumed by the analytics helpers: a possibly
missing `pageContent` string, a possibly missing `metadata` record, and the
object's own top-level fields (`self`), which double as the metadata when the
`metadata` key is absent and which `interpretState` consults directly. -/
structure DocLike where
  pageContent : Option String := none
  metadata : Option GHMeta := none
  self : GHMeta := {}
deriving DecidableEq

/-- `getMetadata` from `openai.js`: `{}` for a missing item, the `metadata`
record when present, otherwise the item itself. -/
def getMetadata (item : Option DocLike) : GHMeta :=
  match item with
  | none => {}
  | some it =>
    match it.metadata with
    | some m => m
    | none => it.self

/-- `extractTitle` from `openai.js`.  The source matches the first line of
`pageContent` against `^#\s*(.+)$` and trims the capture; since the capture is
trimmed afterwards, the match succeeds exactly when the first line starts with
`#` and has at least one further character, and the result is the trimmed
remainder after the `#`. -/
def extractTitle (item : Option DocLike) : Option String :=
  match item with
  | none => none
  | some it =>
    match it.pageContent with
    | none => none
    | some s =>
      match s.data.takeWhile (fun c => !(c = '\n')) with
      | '#' :: rest => if rest.isEmpty then none else some (trimStr (String.mk rest))
      | _ => none

/-! ### Intake summary (`buildGitHubIntakeSummary`) -/

structure KindTotals where
  total : Nat
  openCount : Nat
  closed : Nat
deriving DecidableEq

structure IntakeTotals where
  pullRequests : KindTotals
  issues : KindTotals
deriving DecidableEq

structure RecencyInfo where
  lastOpenPRCreatedAt : Option Int
  lastPROrIssueActivityAt : Option Int
  daysSinceLastActivity : Option Int
  recentActivityWithinWindow : Bool
deriving DecidableEq

structure IntakeSummary where
  repository : Option String
  totals : IntakeTotals
  recency : RecencyInfo
deriving DecidableEq

/-- Options of `buildGitHubIntakeSummary`; `referenceDate = none` stands for
the `new Date()` default, supplied to the model as the explicit `now`. -/
structure IntakeOptions where
  recencyWindowDays : Option Int := none
  referenceDate : Option Int := none
deriving DecidableEq

/-- `interpretState` from `buildGitHubIntakeSummary`:
`(metadata.state || item.state || '').toLowerCase()`. -/
def interpretState (item : DocLike) : String :=
  lowerStr (jsStr (jsOr (getMetadata (some item)).state item.self.state))

/-- `isOpen` from `buildGitHubIntakeSummary`. -/
def isOpenItem (item : DocLike) : Bool :=
  interpretState item = "open"

/-- `dates.sort((a, b) => b - a)[0] || null`: the maximum, `null` on empty
(a `Date` object is always truthy). -/
def maxDate (l : List Int) : Option Int :=
  l.foldl (fun acc d =>
    match acc with
    | none => some d
    | some m => some (max m d)) none

/-- `buildGitHubIntakeSummary` from `openai.js`. -/
def buildGitHubIntakeSummary (prs issues : List DocLike)
    (options : IntakeOptions) (now : Int) : IntakeSummary :=
  let recencyWindowDays := options.recencyWindowDays.getD 14
  let referenceDate := options.referenceDate.getD now
  let openPRs := prs.filter isOpenItem
  let closedPRs := prs.length - openPRs.length
  let openIssues := issues.filter isOpenItem
  let closedIssues := issues.length - openIssues.length
  let lastPROpened :=
    maxDate (openPRs.filterMap (fun pr => toDate (getMetadata (some pr)).created_at))
  let lastPRUpdated :=
    maxDate (prs.filterMap (fun pr => toDate (getMetadata (some pr)).updated_at))
  let lastIssueUpdated :=
    maxDate (issues.filterMap (fun i => toDate (getMetadata (some i)).updated_at))
  let mostRecentActivity := maxDate (([lastPRUpdated, lastIssueUpdated]).filterMap id)
  let repositoryName :=
    firstTruthy
      [match prs.head? with
       | some p => (getMetadata (some p)).repository
       | none => none,
       match issues.head? with
       | some i => (getMetadata (some i)).repository
       | none => none]
  { repository := repositoryName
    totals :=
      { pullRequests :=
          { total := prs.length, openCount := openPRs.length, closed := closedPRs }
        issues :=
          { total := issues.length, openCount := openIssues.length, closed := closedIssues } }
    recency :=
      { lastOpenPRCreatedAt := lastPROpened
        lastPROrIssueActivityAt := mostRecentActivity
        daysSinceLastActivity :=
          match mostRecentActivity with
          | none => none
          | some m => differenceInDays (some m) referenceDate
        recentActivityWithinWindow :=
          match mostRecentActivity with
          | none => false
          | some m =>
            match differenceInDays (some m) referenceDate with
            | none => false
            | some d => d ≤ recencyWindowDays } }

/-! ### Pull-request attention insights (`buildPullRequestAttentionInsights`) -/

structure AttentionOptions where
  staleAfterDays : Option Int := none
  topContributorCount : Option Nat := none
  referenceDate : Option Int := none
deriving DecidableEq

structure ContributorStat where
  author : String
  pullRequestCount : Nat
deriving DecidableEq

structure StalePR where
  number : Option Int
  title : Option String
  lastUpdatedAt : Option Int
  daysSinceUpdate : Int
deriving DecidableEq

structure AttentionTotals where
  pullRequests : Nat
  stale : Nat
deriving DecidableEq

structure AttentionInsights where
  totals : AttentionTotals
  stalePullRequests : List StalePR
  topContributors : List ContributorStat
  suggestedAction : String
deriving DecidableEq

/-- `metadata.author || 'unknown'`. -/
def authorOf (md : GHMeta) : String :=
  if jsTruthy md.author then jsStr md.author else "unknown"

/-- `contributorStats.set(author, {count: current + 1})` on an insertion-order
map (`Map` keeps the position of an existing key, appends a new one). -/
def bumpAuthor : List ContributorStat → String → List ContributorStat
  | [], a => [⟨a, 1⟩]
  | s :: t, a =>
    if s.author = a then ⟨s.author, s.pullRequestCount + 1⟩ :: t
    else s :: bumpAuthor t a

/-- One iteration of the `prs.forEach` body of
`buildPullRequestAttentionInsights`, threading the contributor map and the
stale list. -/
def attentionStep (staleAfterDays : Int) (referenceDate : Int)
    (acc : List ContributorStat × List StalePR) (pr : DocLike) :
    List ContributorStat × List StalePR :=
  let metadata := getMetadata (some pr)
  let author := authorOf metadata
  let updatedAt := toDate metadata.updated_at
  let title := extractTitle (some pr)
  let stats := bumpAuthor acc.1 author
  let isOpen := lowerStr (jsStr metadata.state) = "open"
  let stale :=
    match differenceInDays updatedAt referenceDate with
    | none => acc.2
    | some d =>
      if isOpen ∧ staleAfterDays ≤ d then
        acc.2 ++ [⟨metadata.number, title, updatedAt, d⟩]
      else acc.2
  (stats, stale)

/-- Descending-count comparator of the source's
`sort((a, b) => b.pullRequestCount - a.pullRequestCount)`. -/
def byCountDesc (a b : ContributorStat) : Bool :=
  b.pullRequestCount ≤ a.pullRequestCount

/-- The author key of one pull-request document: the metadata login, or
`"unknown"` when absent. -/
def authorKeyOf (pr : DocLike) : String :=
  authorOf (getMetadata (some pr))

/-- The contributor map accumulated over the input, keyed in
first-encountered order. -/
def contributorStatsOf (prs : List DocLike) : List ContributorStat :=
  prs.foldl (fun st pr => bumpAuthor st (authorKeyOf pr)) []

/-- The count recorded for an author in an insertion-ordered stat list
(`0` when absent). -/
def countFor (st : List ContributorStat) (a : String) : Nat :=
  match st.find? (fun s => s.author = a) with
  | some s => s.pullRequestCount
  | none => 0

/-- `buildPullRequestAttentionInsights` from `openai.js`.  JavaScript's
`Array.prototype.sort` is stable, modelled by `mergeSort`. -/
def buildPullRequestAttentionInsights (prs : List DocLike)
    (options : AttentionOptions) (now : Int) : AttentionInsights :=
  let staleAfterDays := options.staleAfterDays.getD 7
  let topContributorCount := options.topContributorCount.getD 3
  let referenceDate := options.referenceDate.getD now
  let folded := prs.foldl (attentionStep staleAfterDays referenceDate) ([], [])
  let contributorStats := folded.1
  let stalePRs := folded.2
  let topContributors := (contributorStats.mergeSort byCountDesc).take topContributorCount
  { totals := { pullRequests := prs.length, stale := stalePRs.length }
    stalePullRequests := stalePRs
    topContributors := topContributors
    suggestedAction :=
      if 0 < stalePRs.length then
        "Reach out to reviewers on the stale pull requests to unblock merges."
      else
        "No stale pull requests detected. Keep encouraging these contributors!" }

/-! ### Issue triage snapshot (`buildIssueTriageSnapshot`) -/

/-- The `...options.labelMatchers` spread: a partial override per bucket key. -/
structure LabelMatcherOverrides where
  blockers : Option (List String) := none
  onboarding : Option (List String) := none
  security : Option (List String) := none
deriving DecidableEq

structure TriageOptions where
  blockerLabels : Option (List String) := none
  onboardingLabels : Option (List String) := none
  securityLabels : Option (List String) := none
  labelMatchers : LabelMatcherOverrides := {}
deriving DecidableEq

structure IssueSummary where
  number : Option Int
  title : Option String
  labels : List String
  url : Option String
  lastUpdatedAt : Option RawDate
deriving DecidableEq

structure TriageBuckets where
  blockers : List IssueSummary
  onboarding : List IssueSummary
  security : List IssueSummary
  otherOpen : List IssueSummary
deriving DecidableEq

structure TriageTotals where
  openIssues : Nat
  blockers : Nat
  onboarding : Nat
  security : Nat
deriving DecidableEq

structure TriageSnapshot where
  totals : TriageTotals
  buckets : TriageBuckets
  suggestedAction : String
deriving DecidableEq

/-- Effective matcher lists: `options.xxxLabels || [...defaults]`, then the
`...options.labelMatchers` spread on top. -/
def effectiveBlockers (options : TriageOptions) : List String :=
  options.labelMatchers.blockers.getD
    (options.blockerLabels.getD ["blocker", "critical", "p0", "urgent"])

def effectiveOnboarding (options : TriageOptions) : List String :=
  options.labelMatchers.onboarding.getD
    (options.onboardingLabels.getD ["good first issue", "starter", "help wanted"])

def effectiveSecurity (options : TriageOptions) : List String :=
  options.labelMatchers.security.getD
    (options.securityLabels.getD ["security", "vulnerability", "cve"])

/-- Lower-cased label list of an issue:
`Array.isArray(metadata.labels) ? metadata.labels.map(toLowerCase) : []`. -/
def lowerLabels (md : GHMeta) : List String :=
  (md.labels.getD []).map lowerStr

/-- `(metadata.state || '').toLowerCase() === 'open'` (no top-level fallback
here, unlike the intake summary). -/
def isOpenMeta (md : GHMeta) : Bool :=
  lowerStr (jsStr md.state) = "open"

/-- `matchesLabel`: some needle of the list occurs among the issue's
lower-cased labels. -/
def matchesLabel (labels : List String) (labelList : List String) : Bool :=
  labelList.any (fun needle => labels.contains (lowerStr needle))

/-- The `issueSummary` object pushed into a bucket. -/
def issueSummaryOf (issue : DocLike) : IssueSummary :=
  let metadata := getMetadata (some issue)
  { number := metadata.number
    title := extractTitle (some issue)
    labels := metadata.labels.getD []
    url := if jsTruthy metadata.source then metadata.source else none
    lastUpdatedAt :=
      match metadata.updated_at with
      | none => none
      | some rd => if rd.raw = "" then none else some rd }

/-- One iteration of the `issues.forEach` body of `buildIssueTriageSnapshot`. -/
def triageStep (mB mO mS : List String) (b : TriageBuckets) (issue : DocLike) :
    TriageBuckets :=
  let metadata := getMetadata (some issue)
  let labels := lowerLabels metadata
  if !isOpenMeta metadata then b
  else
    let s := issueSummaryOf issue
    if matchesLabel labels mB then { b with blockers := b.blockers ++ [s] }
    else if matchesLabel labels mO then { b with onboarding := b.onboarding ++ [s] }
    else if matchesLabel labels mS then { b with security := b.security ++ [s] }
    else { b with otherOpen := b.otherOpen ++ [s] }

/-- Specification-level classification: an issue belongs to the blockers
bucket iff it is open and some blocker needle matches its labels. -/
def triageIsB (mB : List String) (i : DocLike) : Bool :=
  isOpenMeta (getMetadata (some i)) &&
    matchesLabel (lowerLabels (getMetadata (some i))) mB

/-- Specification-level classification for the onboarding bucket: open, not a
blocker, and some onboarding needle matches. -/
def triageIsO (mB mO : List String) (i : DocLike) : Bool :=
  isOpenMeta (getMetadata (some i)) &&
    !matchesLabel (lowerLabels (getMetadata (some i))) mB &&
    matchesLabel (lowerLabels (getMetadata (some i))) mO

/-- Specification-level classification for the security bucket: open, neither
blocker nor onboarding, and some security needle matches. -/
def triageIsS (mB mO mS : List String) (i : DocLike) : Bool :=
  isOpenMeta (getMetadata (some i)) &&
    !matchesLabel (lowerLabels (getMetadata (some i))) mB &&
    !matchesLabel (lowerLabels (getMetadata (some i))) mO &&
    matchesLabel (lowerLabels (getMetadata (some i))) mS

/-- Specification-level classification for the residual bucket: open and
matching no category. -/
def triageIsOther (mB mO mS : List String) (i : DocLike) : Bool :=
  isOpenMeta (getMetadata (some i)) &&
    !matchesLabel (lowerLabels (getMetadata (some i))) mB &&
    !matchesLabel (lowerLabels (getMetadata (some i))) mO &&
    !matchesLabel (lowerLabels (getMetadata (some i))) mS

/-- `buildIssueTriageSnapshot` from `openai.js`. -/
def buildIssueTriageSnapshot (issues : List DocLike) (options : TriageOptions) :
    TriageSnapshot :=
  let mB := effectiveBlockers options
  let mO := effectiveOnboarding options
  let mS := effectiveSecurity options
  let buckets := issues.foldl (triageStep mB mO mS) ⟨[], [], [], []⟩
  { totals :=
      { openIssues :=
          buckets.blockers.length + buckets.onboarding.length +
            buckets.security.length + buckets.otherOpen.length
        blockers := buckets.blockers.length
        onboarding := buckets.onboarding.length
        security := buckets.security.length }
    buckets := buckets
    suggestedAction :=
      if 0 < buckets.blockers.length then
        "Prioritise the blocker issues first to stabilise the project."
      else
        "No critical blockers detected. Consider pairing newcomers with onboarding-friendly issues." }

/-! ### Fetcher layer (`github_retrieve.js`)

The network is an oracle passed as data: the two paginated fetchers receive
the successive pages the list endpoint would return (pages past the end of the
list are empty), and report the number of page requests they issued alongside
the document list.  The tree walker receives the directory tree and reports a
trace of fetch/emit events. -/

/-- A document as produced by the fetchers (`buildGitHubDocument`). -/
structure GHDoc where
  pageContent : String
  metadata : GHMeta
deriving DecidableEq

def buildGitHubDocument (pageContent : String) (metadata : GHMeta) : GHDoc :=
  ⟨pageContent, metadata⟩

/-- `Array.prototype.join(sep)`. -/
def joinSep (sep : String) : List String → String
  | [] => ""
  | [x] => x
  | x :: xs => x ++ sep ++ joinSep sep xs

/-- `maxResults && documents.length >= maxResults` — the guard of every cap
check (`null` and `0` are falsy, so both mean "unbounded"). -/
def capReached (maxResults : Option Nat) (count : Nat) : Bool :=
  match maxResults with
  | none => false
  | some k => if k = 0 then false else k ≤ count

/-- Configuration options common to the fetchers (network-irrelevant fields
like `accessToken` and `apiUrl` select the oracle and are omitted). -/
structure FetchOptions where
  state : String := "all"
  perPage : Nat := 100
  maxResults : Option Nat := none
  branch : String := "main"
deriving DecidableEq

/-! #### URL parsing -/

/-- The literal the regex `github\.com\/([^\/]+)\/([^\/]+)` must find. -/
def githubSlashNeedle : List Char := "github.com/".data

/-- The literal of `ownerOrUrl.includes('github.com')`. -/
def githubNeedle : List Char := "github.com".data

/-- Matching `([^\/]+)\/([^\/]+)` at the front of `cs`: a nonempty run of
non-slash characters, a slash, a nonempty (greedy) run of non-slash
characters. -/
def captureOwnerRepo (cs : List Char) : Option (String × String) :=
  let o := cs.takeWhile (fun c => !(c = '/'))
  if o.isEmpty then none
  else
    match cs.dropWhile (fun c => !(c = '/')) with
    | '/' :: rest2 =>
      let r := rest2.takeWhile (fun c => !(c = '/'))
      if r.isEmpty then none else some (String.mk o, String.mk r)
    | _ => none

/-- Leftmost-match scan of the regex: at each position, try the literal
`github.com/` followed by the two captures; on failure advance one
character. -/
def regexScan : List Char → Option (String × String)
  | [] => none
  | c :: rest =>
    if githubSlashNeedle.isPrefixOf (c :: rest) then
      match captureOwnerRepo ((c :: rest).drop githubSlashNeedle.length) with
      | some p => some p
      | none => regexScan rest
    else regexScan rest

/-- `parseGitHubUrl` from `github_retrieve.js` (`none` models the thrown
`Invalid GitHub URL format` error). -/
def parseGitHubUrl (url : String) : Option (String × String) :=
  regexScan url.data

def invalidUrlMsg : String :=
  "Invalid GitHub URL format. Expected: https://github.com/owner/repo"

/-- The owner/repo resolution at the top of each fetcher: parse when the
argument contains `github.com`, otherwise use the two explicit arguments. -/
def resolveRepoRef (ownerOrUrl repo : String) : Except String (String × String) :=
  if containsSub githubNeedle ownerOrUrl.data then
    match parseGitHubUrl ownerOrUrl with
    | some p => .ok p
    | none => .error invalidUrlMsg
  else .ok (ownerOrUrl, repo)

/-! #### Pull-request fetcher -/

/-- A raw pull request as delivered by the list endpoint. -/
structure PRRaw where
  number : Nat
  title : String
  state : String
  userLogin : String
  created_at : RawDate
  updated_at : RawDate
  merged_at : Option String
  body : Option String
  html_url : String
  baseRef : String
  headRef : String
deriving DecidableEq

/-- The `content` template of `fetchGitHubPRs`. -/
def prContent (pr : PRRaw) : String :=
  "# Pull Request #" ++ toString pr.number ++ ": " ++ pr.title ++ "\n\n" ++
  "**Author:** " ++ pr.userLogin ++ "\n" ++
  "**State:** " ++ pr.state ++ "\n" ++
  "**Created:** " ++ pr.created_at.raw ++ "\n" ++
  "**Updated:** " ++ pr.updated_at.raw ++ "\n" ++
  (match pr.merged_at with
   | some m => "**Merged:** " ++ m
   | none => "") ++ "\n\n" ++
  "## Description\n" ++
  (match pr.body with
   | some b => if b = "" then "No description provided" else b
   | none => "No description provided") ++ "\n\n" ++
  "**URL:** " ++ pr.html_url ++ "\n" ++
  "**Base Branch:** " ++ pr.baseRef ++ "\n" ++
  "**Head Branch:** " ++ pr.headRef ++ "\n"

/-- The document pushed for one pull request (`repositoryStr` is the
`` `${owner}/${actualRepo}` `` of the enclosing call). -/
def prToDoc (repositoryStr : String) (pr : PRRaw) : GHDoc :=
  buildGitHubDocument (prContent pr)
    { source := some pr.html_url
      type := some "pull_request"
      number := some (pr.number : Int)
      state := some pr.state
      author := some pr.userLogin
      created_at := some pr.created_at
      updated_at := some pr.updated_at
      repository := some repositoryStr }

/-- The `for (const pr of prs)` loop of one page: returns the grown document
list and whether the cap check broke out of the page. -/
def prProcessPage (maxResults : Option Nat) (repositoryStr : String) :
    List PRRaw → List GHDoc → List GHDoc × Bool
  | [], docs => (docs, false)
  | pr :: rest, docs =>
    if capReached maxResults docs.length then (docs, true)
    else prProcessPage maxResults repositoryStr rest (docs ++ [prToDoc repositoryStr pr])

/-- The `while (hasMore)` pagination loop of `fetchGitHubPRs` over the pages
the endpoint returns in order (pages past the end are empty).  The second
component counts the page requests issued. -/
def prFetchLoop (maxResults : Option Nat) (perPage : Nat) (repositoryStr : String) :
    List (List PRRaw) → List GHDoc → List GHDoc × Nat
  | [], docs => (docs, 1)
  | page :: rest, docs =>
    if page.length = 0 then (docs, 1)
    else
      let step := prProcessPage maxResults repositoryStr page docs
      if step.2 then (step.1, 1)
      else if page.length < perPage then (step.1, 1)
      else
        let next := prFetchLoop maxResults perPage repositoryStr rest step.1
        (next.1, next.2 + 1)

/-- `fetchGitHubPRs`: resolve the repository reference (failing before any
request on a malformed URL), then paginate.  Returns the outcome and the
number of page requests issued. -/
def fetchGitHubPRs (ownerOrUrl repo : String) (options : FetchOptions)
    (pages : List (List PRRaw)) : Except String (List GHDoc) × Nat :=
  match resolveRepoRef ownerOrUrl repo with
  | .error e => (.error e, 0)
  | .ok (owner, actualRepo) =>
    let r := prFetchLoop options.maxResults options.perPage
      (owner ++ "/" ++ actualRepo) pages []
    (.ok r.1, r.2)

/-! #### Issue fetcher -/

structure LabelRaw where
  name : String
deriving DecidableEq

/-- A raw issue as delivered by the issues endpoint; `pull_request` is the
presence of the marker object flagging a cross-posted pull request. -/
structure IssueRaw where
  number : Nat
  title : String
  state : String
  userLogin : String
  created_at : RawDate
  updated_at : RawDate
  closed_at : Option String
  labels : List LabelRaw
  body : Option String
  html_url : String
  comments : Nat
  pull_request : Bool
deriving DecidableEq

/-- The `content` template of `fetchGitHubIssues`. -/
def issueContent (issue : IssueRaw) : String :=
  let labels := joinSep ", " (issue.labels.map LabelRaw.name)
  "# Issue #" ++ toString issue.number ++ ": " ++ issue.title ++ "\n\n" ++
  "**Author:** " ++ issue.userLogin ++ "\n" ++
  "**State:** " ++ issue.state ++ "\n" ++
  "**Created:** " ++ issue.created_at.raw ++ "\n" ++
  "**Updated:** " ++ issue.updated_at.raw ++ "\n" ++
  (match issue.closed_at with
   | some c => "**Closed:** " ++ c
   | none => "") ++ "\n" ++
  (if labels = "" then "" else "**Labels:** " ++ labels) ++ "\n\n" ++
  "## Description\n" ++
  (match issue.body with
   | some b => if b = "" then "No description provided" else b
   | none => "No description provided") ++ "\n\n" ++
  "**URL:** " ++ issue.html_url ++ "\n" ++
  "**Comments:** " ++ toString issue.comments ++ "\n"

/-- The document pushed for one issue. -/
def issueToDoc (repositoryStr : String) (issue : IssueRaw) : GHDoc :=
  buildGitHubDocument (issueContent issue)
    { source := some issue.html_url
      type := some "issue"
      number := some (issue.number : Int)
      state := some issue.state
      author := some issue.userLogin
      labels := some (issue.labels.map LabelRaw.name)
      created_at := some issue.created_at
      updated_at := some issue.updated_at
      repository := some repositoryStr }

/-- The `for (const issue of issues)` loop of one page: cap check first, then
the pull-request skip (skipped items push nothing, so they never count toward
the cap). -/
def issueProcessPage (maxResults : Option Nat) (repositoryStr : String) :
    List IssueRaw → List GHDoc → List GHDoc × Bool
  | [], docs => (docs, false)
  | issue :: rest, docs =>
    if capReached maxResults docs.length then (docs, true)
    else if issue.pull_request then issueProcessPage maxResults repositoryStr rest docs
    else issueProcessPage maxResults repositoryStr rest (docs ++ [issueToDoc repositoryStr issue])

/-- The pagination loop of `fetchGitHubIssues`. -/
def issueFetchLoop (maxResults : Option Nat) (perPage : Nat) (repositoryStr : String) :
    List (List IssueRaw) → List GHDoc → List GHDoc × Nat
  | [], docs => (docs, 1)
  | page :: rest, docs =>
    if page.length = 0 then (docs, 1)
    else
      let step := issueProcessPage maxResults repositoryStr page docs
      if step.2 then (step.1, 1)
      else if page.length < perPage then (step.1, 1)
      else
        let next := issueFetchLoop maxResults perPage repositoryStr rest step.1
        (next.1, next.2 + 1)

/-- `fetchGitHubIssues` (current revision, `src/resolvers/github_retrieve.js`):
the metadata `repository` is `` `${owner}/${actualRepo}` ``. -/
def fetchGitHubIssues (ownerOrUrl repo : String) (options : FetchOptions)
    (pages : List (List IssueRaw)) : Except String (List GHDoc) × Nat :=
  match resolveRepoRef ownerOrUrl repo with
  | .error e => (.error e, 0)
  | .ok (owner, actualRepo) =>
    let r := issueFetchLoop options.maxResults options.perPage
      (owner ++ "/" ++ actualRepo) pages []
    (.ok r.1, r.2)

/-- `fetchGitHubIssues` of the earlier fetcher revision (unnamed source part
002): identical except that the metadata `repository` is
`` `${owner}/${repo}` `` — the raw second argument, even when a URL was
supplied and that argument is documented as ignored. -/
def fetchGitHubIssuesLegacy (ownerOrUrl repo : String) (options : FetchOptions)
    (pages : List (List IssueRaw)) : Except String (List GHDoc) × Nat :=
  match resolveRepoRef ownerOrUrl repo with
  | .error e => (.error e, 0)
  | .ok (owner, _actualRepo) =>
    let r := issueFetchLoop options.maxResults options.perPage
      (owner ++ "/" ++ repo) pages []
    (.ok r.1, r.2)

/-! #### Markdown tree walker -/

/-- A node of the repository contents tree.  A `file` carries the listing
fields plus the text its `download_url` serves; the listing of a `dir` is its
`children`. -/
inductive GHEntry where
  | file (name path sha html_url download_url : String) (size : Nat) (text : String)
  | dir (name path : String) (children : List GHEntry)

/-- One observable action of the walker: a directory-listing request, a raw
file-content request, or the push of a document. -/
inductive FetchEvent where
  | listDir (path : String)
  | getFile (url : String)
  | emit (path : String)
deriving DecidableEq

/-- The `content` template of `fetchGitHubMarkdownFiles`. -/
def mdContent (name path sha : String) (size : Nat) (text : String) : String :=
  "# " ++ name ++ "\n\n" ++
  "**Path:** " ++ path ++ "\n" ++
  "**Size:** " ++ toString size ++ " bytes\n" ++
  "**SHA:** " ++ sha ++ "\n\n" ++
  "## Content\n\n" ++
  text ++ "\n"

/-- The document pushed for one markdown file. -/
def mdToDoc (repositoryStr branch : String)
    (name path sha html_url : String) (size : Nat) (text : String) : GHDoc :=
  buildGitHubDocument (mdContent name path sha size text)
    { source := some html_url
      type := some "markdown_file"
      path := some path
      name := some name
      size := some size
      sha := some sha
      repository := some repositoryStr
      branch := some branch }

/-- The `for (const item of contents)` loop of `fetchDirectoryContents`,
walking the listed entries of one directory.  The cap check runs before each
entry and `return`s from the current level; entering a subdirectory first
issues its listing request (a `listDir` event), a matching `.md` file issues
its content request (`getFile`) and pushes a document (`emit`).  The second
component is the trace of events, in order. -/
def fetchDirectoryContents (maxResults : Option Nat) (repositoryStr branch : String) :
    List GHEntry → List GHDoc → List GHDoc × List FetchEvent
  | [], docs => (docs, [])
  | e :: rest, docs =>
    if capReached maxResults docs.length then (docs, [])
    else
      match e with
      | .file name path sha html_url download_url size text =>
        if endsWithStr name ".md" then
          let doc := mdToDoc repositoryStr branch name path sha html_url size text
          let next := fetchDirectoryContents maxResults repositoryStr branch rest
            (docs ++ [doc])
          (next.1, FetchEvent.getFile download_url :: FetchEvent.emit path :: next.2)
        else
          fetchDirectoryContents maxResults repositoryStr branch rest docs
      | .dir _ path children =>
        let sub := fetchDirectoryContents maxResults repositoryStr branch children docs
        let next := fetchDirectoryContents maxResults repositoryStr branch rest sub.1
        (next.1, FetchEvent.listDir path :: sub.2 ++ next.2)

/-- `fetchGitHubMarkdownFiles`: resolve the reference, then walk the root
listing (the initial `fetchDirectoryContents('')` call issues the root
listing request). -/
def fetchGitHubMarkdownFiles (ownerOrUrl repo : String) (options : FetchOptions)
    (root : List GHEntry) : Except String (List GHDoc × List FetchEvent) × Nat :=
  match resolveRepoRef ownerOrUrl repo with
  | .error e => (.error e, 0)
  | .ok (owner, actualRepo) =>
    let w := fetchDirectoryContents options.maxResults
      (owner ++ "/" ++ actualRepo) options.branch root []
    (.ok (w.1, FetchEvent.listDir "" :: w.2), 1)

/-- Number of documents pushed along a walker trace. -/
def emitCount (t : List FetchEvent) : Nat :=
  (t.filter fun e =>
    match e with
    | .emit _ => true
    | _ => false).length

/-- The prefix of a trace up to and including its `k`-th `emit` event (the
whole trace when it has fewer than `k` emits); `k ≥ 1` is assumed. -/
def cutAfterEmits (k : Nat) : List FetchEvent → List FetchEvent
  | [] => []
  | e :: t =>
    match e with
    | .emit p => if k ≤ 1 then [FetchEvent.emit p] else FetchEvent.emit p :: cutAfterEmits (k - 1) t
    | other => other :: cutAfterEmits k t

/-! #### Aggregator -/

/-- The joined result of `fetchGitHubRepoData`. -/
structure AggregateResult where
  prs : List GHDoc
  issues : List GHDoc
  markdownFiles : List GHDoc
  all : List GHDoc
deriving DecidableEq

/-- `fetchGitHubRepoData`: `Promise.all` over the three concurrently started
pipelines, then the joined object.  Each argument is the outcome of one
pipeline; the join yields a value only when all three succeeded, and
propagates a failure otherwise (when exactly one pipeline fails, the surfaced
failure is that pipeline's, matching `Promise.all`; when several fail the
model picks the first in argument order, where the source surfaces the first
in time). -/
def fetchGitHubRepoData (prResult issueResult mdResult : Except String (List GHDoc)) :
    Except String AggregateResult :=
  match prResult with
  | .error e => .error e
  | .ok prs =>
    match issueResult with
    | .error e => .error e
    | .ok issues =>
      match mdResult with
      | .error e => .error e
      | .ok markdownFiles =>
        .ok ⟨prs, issues, markdownFiles, prs ++ issues ++ markdownFiles⟩

end GH

/-! ### Concrete sample values used by witnesses and counterexamples -/

/-- A concrete raw pull request with a given number. -/
def mkPRRaw (n : Nat) : GH.PRRaw :=
  { number := n
    title := "Add feature"
    state := "open"
    userLogin := "dev"
    created_at := ⟨"2024-01-01T00:00:00Z", some 1704067200000⟩
    updated_at := ⟨"2024-01-02T00:00:00Z", some 1704153600000⟩
    merged_at := none
    body := none
    html_url := "https://github.com/o/r/pull/1"
    baseRef := "main"
    headRef := "feature" }

/-- A concrete raw issue with a given number and pull-request flag. -/
def mkIssueRaw (n : Nat) (pr : Bool) : GH.IssueRaw :=
  { number := n
    title := "Report"
    state := "open"
    userLogin := "dev"
    created_at := ⟨"", none⟩
    updated_at := ⟨"", none⟩
    closed_at := none
    labels := []
    body := none
    html_url := "https://github.com/o/r/issues/1"
    comments := 0
    pull_request := pr }

/-- A minimal raw issue used by concrete evaluations. -/
def sampleIssue : GH.IssueRaw :=
  { number := 7
    title := "Crash on import"
    state := "open"
    userLogin := "alice"
    created_at := ⟨"2024-01-01T00:00:00Z", some 1704067200000⟩
    updated_at := ⟨"2024-01-02T00:00:00Z", some 1704153600000⟩
    closed_at := none
    labels := [⟨"bug"⟩]
    body := some "It crashes."
    html_url := "https://github.com/langchain-ai/langchain/issues/7"
    comments := 2
    pull_request := false }

/-- An open issue labeled both `blocker` and `good first issue`, for the C7
witness. -/
def blockerGfiIssue : GH.DocLike :=
  { pageContent := some "# Issue #3: Build is broken"
    metadata := some
      { number := some 3
        state := some "open"
        labels := some ["Blocker", "good first issue"]
        source := some "https://github.com/o/r/issues/3" } }

/-- An item whose `metadata` record is present but carries no `state`, while
the object's own top-level `state` is `"open"`. -/
def fallbackStateItem : GH.DocLike :=
  { metadata := some {}, self := { state := some "open" } }

/-- A pull-request document with metadata state `"open"`. -/
def openPRDoc : GH.DocLike := { metadata := some { state := some "Open" } }

/-- A pull-request document with metadata state `"closed"`. -/
def closedPRDoc : GH.DocLike := { metadata := some { state := some "closed" } }

/-- A pull-request document authored by `a`. -/
def prByA : GH.DocLike := { metadata := some { author := some "a" } }

/-- A pull-request document authored by `b`. -/
def prByB : GH.DocLike := { metadata := some { author := some "b" } }

/-- A small contents tree: a subdirectory holding one markdown file, then a
markdown file and a non-markdown file at the root. -/
def sampleTree : List GH.GHEntry :=
  [GH.GHEntry.dir "docs" "docs"
    [GH.GHEntry.file "guide.md" "docs/guide.md" "sha1" "hu1" "du1" 5 "Guide"],
   GH.GHEntry.file "README.md" "README.md" "sha2" "hu2" "du2" 6 "Readme",
   GH.GHEntry.file "index.js" "index.js" "sha3" "hu3" "du3" 7 "code"]

/-! ## Theorems -/

/-- C1.  Fail-fast join of `fetchGitHubRepoData`: whenever any of the three
concurrently started pipelines fails, no `AggregateResult` is produced — the
other two pipelines' document lists are never surfaced — and when exactly one
pipeline fails, the whole call fails with that pipeline's failure. -/
theorem fetchGitHubRepoData_fail_fast
    (prR issR mdR : Except String (List GH.GHDoc)) :
    ((∃ e, prR = Except.error e ∨ issR = Except.error e ∨ mdR = Except.error e) →
      ∀ r, GH.fetchGitHubRepoData prR issR mdR ≠ Except.ok r) ∧
    (∀ e : String,
      ((prR = Except.error e ∧ (∃ i, issR = Except.ok i) ∧ (∃ m, mdR = Except.ok m)) ∨
       ((∃ p, prR = Except.ok p) ∧ issR = Except.error e ∧ (∃ m, mdR = Except.ok m)) ∨
       ((∃ p, prR = Except.ok p) ∧ (∃ i, issR = Except.ok i) ∧ mdR = Except.error e)) →
      GH.fetchGitHubRepoData prR issR mdR = Except.error e) := by
  constructor
  · rintro ⟨e, he⟩ r
    cases prR with
    | error e1 => simp [GH.fetchGitHubRepoData]
    | ok p =>
      cases issR with
      | error e1 => simp [GH.fetchGitHubRepoData]
      | ok i =>
        cases mdR with
        | error e1 => simp [GH.fetchGitHubRepoData]
        | ok m => rcases he with he | he | he <;> simp at he
  · rintro e h
    rcases h with ⟨he, ⟨i, hi⟩, ⟨m, hm⟩⟩ | ⟨⟨p, hp⟩, he, ⟨m, hm⟩⟩ | ⟨⟨p, hp⟩, ⟨i, hi⟩, he⟩
    · subst he; simp [GH.fetchGitHubRepoData]
    · subst he; subst hp; simp [GH.fetchGitHubRepoData]
    · subst he; subst hp; subst hi; simp [GH.fetchGitHubRepoData]

/-- Witness for C1: the spec's own scenario — the markdown pipeline fails
while the other two succeed — makes `ingest` fail with that failure and
return no aggregate. -/
theorem fetchGitHubRepoData_fail_fast_witness :
    GH.fetchGitHubRepoData (Except.ok []) (Except.ok [])
        (Except.error "Failed to fetch directory contents: 404 Not Found") =
      Except.error "Failed to fetch directory contents: 404 Not Found" ∧
    ∀ r, GH.fetchGitHubRepoData (Except.ok []) (Except.ok [])
        (Except.error "Failed to fetch directory contents: 404 Not Found") ≠ Except.ok r := by
  refine ⟨?_, ?_⟩
  · exact (fetchGitHubRepoData_fail_fast _ _ _).2 _
      (Or.inr (Or.inr ⟨⟨[], rfl⟩, ⟨[], rfl⟩, rfl⟩))
  · exact (fetchGitHubRepoData_fail_fast _ _ _).1
      ⟨"Failed to fetch directory contents: 404 Not Found", Or.inr (Or.inr rfl)⟩


/-- C6.  In the earlier fetcher revision (unnamed source part 002), the issue
and markdown fetchers build the `repository` metadata field as
`` `${owner}/${repo}` `` from the raw second argument even when a URL was
supplied — the argument their own documentation declares ignored — so a call
with a URL and a differing explicit `repo` yields the mixed identifier
`parsedOwner/explicitRepo` rather than the parsed `owner/repo`.  The current
revision (`src/resolvers/github_retrieve.js`) uses the parsed repository, as
the claim states. -/
theorem legacy_repository_field_bug :
    (GH.fetchGitHubIssuesLegacy "https://github.com/langchain-ai/langchain"
        "otherrepo" {} [[sampleIssue]]).1 =
      Except.ok [GH.issueToDoc "langchain-ai/otherrepo" sampleIssue] ∧
    (GH.fetchGitHubIssues "https://github.com/langchain-ai/langchain"
        "otherrepo" {} [[sampleIssue]]).1 =
      Except.ok [GH.issueToDoc "langchain-ai/langchain" sampleIssue] ∧
    (GH.issueToDoc "langchain-ai/otherrepo" sampleIssue).metadata.repository ≠
      (GH.issueToDoc "langchain-ai/langchain" sampleIssue).metadata.repository := by
  refine ⟨rfl, rfl, by decide⟩

/-- The `forEach` fold of the triage snapshot appends to each bucket exactly
the summaries of the issues its first-match classification selects. -/
theorem triage_fold_characterization (mB mO mS : List String)
    (issues : List GH.DocLike) (b : GH.TriageBuckets) :
    issues.foldl (GH.triageStep mB mO mS) b =
      { blockers := b.blockers ++ (issues.filter (GH.triageIsB mB)).map GH.issueSummaryOf
        onboarding :=
          b.onboarding ++ (issues.filter (GH.triageIsO mB mO)).map GH.issueSummaryOf
        security :=
          b.security ++ (issues.filter (GH.triageIsS mB mO mS)).map GH.issueSummaryOf
        otherOpen :=
          b.otherOpen ++ (issues.filter (GH.triageIsOther mB mO mS)).map GH.issueSummaryOf } := by
  induction issues generalizing b with
  | nil => simp
  | cons i t ih =>
    rw [List.foldl_cons, ih]
    by_cases ho : GH.isOpenMeta (GH.getMetadata (some i)) <;>
      by_cases hB : GH.matchesLabel (GH.lowerLabels (GH.getMetadata (some i))) mB <;>
      by_cases hO : GH.matchesLabel (GH.lowerLabels (GH.getMetadata (some i))) mO <;>
      by_cases hS : GH.matchesLabel (GH.lowerLabels (GH.getMetadata (some i))) mS <;>
      simp [GH.triageStep, GH.triageIsB, GH.triageIsO, GH.triageIsS, GH.triageIsOther,
        List.filter_cons, ho, hB, hO, hS, List.append_assoc]

/-- The four first-match classes partition the open issues, so the bucket
sizes add up to the number of open inputs. -/
theorem triage_partition_count (mB mO mS : List String) (issues : List GH.DocLike) :
    (issues.filter (GH.triageIsB mB)).length +
      (issues.filter (GH.triageIsO mB mO)).length +
      (issues.filter (GH.triageIsS mB mO mS)).length +
      (issues.filter (GH.triageIsOther mB mO mS)).length =
      (issues.filter (fun i => GH.isOpenMeta (GH.getMetadata (some i)))).length := by
  induction issues with
  | nil => simp
  | cons i t ih =>
    by_cases ho : GH.isOpenMeta (GH.getMetadata (some i)) <;>
      by_cases hB : GH.matchesLabel (GH.lowerLabels (GH.getMetadata (some i))) mB <;>
      by_cases hO : GH.matchesLabel (GH.lowerLabels (GH.getMetadata (some i))) mO <;>
      by_cases hS : GH.matchesLabel (GH.lowerLabels (GH.getMetadata (some i))) mS <;>
      simp [GH.triageIsB, GH.triageIsO, GH.triageIsS, GH.triageIsOther,
        List.filter_cons, ho, hB, hO, hS] <;>
      omega

/-- C7.  Triage snapshot: closed issues land in no bucket, and each open
issue lands in exactly one bucket, chosen by strict first-match precedence
blockers > onboarding > security > otherOpen over its case-insensitively
matched labels — each bucket is exactly the ordered summaries of the issues
its class selects (so an issue labeled both `blocker` and `good first issue`
appears only in `blockers`), and `openIssues` equals the number of open
inputs. -/
theorem buildIssueTriageSnapshot_spec (issues : List GH.DocLike)
    (options : GH.TriageOptions) :
    (GH.buildIssueTriageSnapshot issues options).buckets.blockers =
      (issues.filter (GH.triageIsB (GH.effectiveBlockers options))).map
        GH.issueSummaryOf ∧
    (GH.buildIssueTriageSnapshot issues options).buckets.onboarding =
      (issues.filter (GH.triageIsO (GH.effectiveBlockers options)
        (GH.effectiveOnboarding options))).map GH.issueSummaryOf ∧
    (GH.buildIssueTriageSnapshot issues options).buckets.security =
      (issues.filter (GH.triageIsS (GH.effectiveBlockers options)
        (GH.effectiveOnboarding options) (GH.effectiveSecurity options))).map
        GH.issueSummaryOf ∧
    (GH.buildIssueTriageSnapshot issues options).buckets.otherOpen =
      (issues.filter (GH.triageIsOther (GH.effectiveBlockers options)
        (GH.effectiveOnboarding options) (GH.effectiveSecurity options))).map
        GH.issueSummaryOf ∧
    (GH.buildIssueTriageSnapshot issues options).totals.openIssues =
      (issues.filter (fun i => GH.isOpenMeta (GH.getMetadata (some i)))).length := by
  have h := triage_fold_characterization (GH.effectiveBlockers options)
    (GH.effectiveOnboarding options) (GH.effectiveSecurity options) issues ⟨[], [], [], []⟩
  have hc := triage_partition_count (GH.effectiveBlockers options)
    (GH.effectiveOnboarding options) (GH.effectiveSecurity options) issues
  refine ⟨?_, ?_, ?_, ?_, ?_⟩ <;>
    simp only [GH.buildIssueTriageSnapshot, h] <;> simp <;> omega


/-- Witness for C7: the dual-labeled open issue lands in the blockers bucket
only, and counts once in `openIssues`. -/
theorem buildIssueTriageSnapshot_spec_witness :
    (GH.buildIssueTriageSnapshot [blockerGfiIssue] {}).buckets.blockers.length = 1 ∧
    (GH.buildIssueTriageSnapshot [blockerGfiIssue] {}).buckets.onboarding = [] ∧
    (GH.buildIssueTriageSnapshot [blockerGfiIssue] {}).buckets.security = [] ∧
    (GH.buildIssueTriageSnapshot [blockerGfiIssue] {}).buckets.otherOpen = [] ∧
    (GH.buildIssueTriageSnapshot [blockerGfiIssue] {}).totals.openIssues = 1 := by
  have h := buildIssueTriageSnapshot_spec [blockerGfiIssue] {}
  refine ⟨?_, ?_, ?_, ?_, ?_⟩
  · rw [h.1]; decide
  · rw [h.2.1]; decide
  · rw [h.2.2.1]; decide
  · rw [h.2.2.2.1]; decide
  · rw [h.2.2.2.2]; decide


/-- C8 counterexample.  The claim says an item is open iff its metadata
`state`, lower-cased, equals `"open"`, absent counting as closed; but
`interpretState` is `(metadata.state || item.state || '')`, so this item —
whose metadata has no `state` at all — is still counted open via the
top-level fallback. -/
theorem intake_state_classification_counterexample :
    (GH.getMetadata (some fallbackStateItem)).state = none ∧
    GH.isOpenItem fallbackStateItem = true ∧
    (GH.buildGitHubIntakeSummary [fallbackStateItem] [] {} 0).totals.pullRequests.openCount
      = 1 ∧
    (GH.buildGitHubIntakeSummary [fallbackStateItem] [] {} 0).totals.pullRequests.closed
      = 0 := by
  decide



/-- C8 (amended).  Intake summary state classification: an item is counted
open iff the state read from its unwrapped metadata — falling back to the
item's own top-level `state` when the metadata one is absent or empty —
lower-cases to exactly `"open"`; absent in both counts as closed.  Per-kind
totals satisfy `open + closed = total` (i.e. `closed = total - open`), and 3
open plus 2 closed pull requests yield `{total: 5, open: 3, closed: 2}`. -/
theorem buildGitHubIntakeSummary_totals (prs issues : List GH.DocLike)
    (options : GH.IntakeOptions) (now : Int) :
    (GH.buildGitHubIntakeSummary prs issues options now).totals.pullRequests.total
      = prs.length ∧
    (GH.buildGitHubIntakeSummary prs issues options now).totals.pullRequests.openCount
      = (prs.filter GH.isOpenItem).length ∧
    (GH.buildGitHubIntakeSummary prs issues options now).totals.pullRequests.closed
      = prs.length - (prs.filter GH.isOpenItem).length ∧
    (GH.buildGitHubIntakeSummary prs issues options now).totals.pullRequests.openCount +
      (GH.buildGitHubIntakeSummary prs issues options now).totals.pullRequests.closed
      = prs.length ∧
    (GH.buildGitHubIntakeSummary prs issues options now).totals.issues.total
      = issues.length ∧
    (GH.buildGitHubIntakeSummary prs issues options now).totals.issues.openCount
      = (issues.filter GH.isOpenItem).length ∧
    (GH.buildGitHubIntakeSummary prs issues options now).totals.issues.openCount +
      (GH.buildGitHubIntakeSummary prs issues options now).totals.issues.closed
      = issues.length ∧
    (∀ it : GH.DocLike, GH.isOpenItem it = true ↔
      GH.lowerStr (GH.jsStr (GH.jsOr (GH.getMetadata (some it)).state it.self.state))
        = "open") ∧
    (GH.buildGitHubIntakeSummary
        [openPRDoc, openPRDoc, openPRDoc,
          closedPRDoc, closedPRDoc] [] {} 0).totals.pullRequests = ⟨5, 3, 2⟩ := by
  have hp := List.length_filter_le GH.isOpenItem prs
  have hi := List.length_filter_le GH.isOpenItem issues
  refine ⟨rfl, rfl, rfl, ?_, rfl, rfl, ?_, ?_, by decide⟩
  · simp [GH.buildGitHubIntakeSummary]; omega
  · simp [GH.buildGitHubIntakeSummary]; omega
  · intro it
    simp [GH.isOpenItem, GH.interpretState]

/-- Witness for C8: the amended classification and totals at the 3-open,
2-closed sample. -/
theorem buildGitHubIntakeSummary_totals_witness :
    (GH.buildGitHubIntakeSummary
        [openPRDoc, openPRDoc, openPRDoc,
          closedPRDoc, closedPRDoc] [] {} 0).totals.pullRequests.openCount = 3 ∧
    (GH.buildGitHubIntakeSummary
        [openPRDoc, openPRDoc, openPRDoc,
          closedPRDoc, closedPRDoc] [] {} 0).totals.pullRequests.closed = 2 := by
  have h := buildGitHubIntakeSummary_totals
    [openPRDoc, openPRDoc, openPRDoc, closedPRDoc, closedPRDoc] [] {} 0
  constructor
  · rw [h.2.1]; decide
  · rw [h.2.2.1]; decide

/-- C10.  Defensive behaviour of the analytics suite on arbitrary
document-like input: totality is by construction in this embedding, and the
specific fallbacks hold — a missing metadata record falls back to the item
itself (or the empty record for a missing item), unparseable or absent dates
become `null`, a missing `pageContent` yields a `null` title, a missing
author is keyed `"unknown"`, and on arbitrary input each function still
returns a fully shaped result whose totals are consistent. -/
theorem analytics_defensive_defaults :
    GH.getMetadata none = {} ∧
    (∀ it : GH.DocLike, it.metadata = none → GH.getMetadata (some it) = it.self) ∧
    GH.toDate none = none ∧
    (∀ rd : GH.RawDate, rd.parsed = none → GH.toDate (some rd) = none) ∧
    (∀ it : GH.DocLike, it.pageContent = none → GH.extractTitle (some it) = none) ∧
    (∀ it : GH.DocLike, GH.jsTruthy (GH.getMetadata (some it)).author = false →
      (GH.buildPullRequestAttentionInsights [it] {} 0).topContributors =
        [⟨"unknown", 1⟩]) ∧
    (∀ prs issues : List GH.DocLike, ∀ io : GH.IntakeOptions, ∀ now : Int,
      (GH.buildGitHubIntakeSummary prs issues io now).totals.pullRequests.openCount +
        (GH.buildGitHubIntakeSummary prs issues io now).totals.pullRequests.closed
        = prs.length ∧
      (GH.buildGitHubIntakeSummary prs issues io now).totals.issues.openCount +
        (GH.buildGitHubIntakeSummary prs issues io now).totals.issues.closed
        = issues.length) ∧
    (∀ prs : List GH.DocLike, ∀ ao : GH.AttentionOptions, ∀ now : Int,
      (GH.buildPullRequestAttentionInsights prs ao now).totals.pullRequests
        = prs.length) ∧
    (∀ issues : List GH.DocLike, ∀ topts : GH.TriageOptions,
      (GH.buildIssueTriageSnapshot issues topts).totals.openIssues ≤ issues.length) := by
  refine ⟨rfl, ?_, rfl, ?_, ?_, ?_, ?_, ?_, ?_⟩
  · intro it h
    simp [GH.getMetadata, h]
  · intro rd h
    by_cases hr : rd.raw = "" <;> simp [GH.toDate, hr, h]
  · intro it h
    simp [GH.extractTitle, h]
  · intro it h
    simp [GH.buildPullRequestAttentionInsights, GH.attentionStep, GH.bumpAuthor,
      GH.authorOf, h, List.mergeSort]
  · intro prs issues io now
    have hp := List.length_filter_le GH.isOpenItem prs
    have hi := List.length_filter_le GH.isOpenItem issues
    constructor <;> simp [GH.buildGitHubIntakeSummary] <;> omega
  · intro prs ao now
    rfl
  · intro issues topts
    have h := triage_fold_characterization (GH.effectiveBlockers topts)
      (GH.effectiveOnboarding topts) (GH.effectiveSecurity topts) issues ⟨[], [], [], []⟩
    have hc := triage_partition_count (GH.effectiveBlockers topts)
      (GH.effectiveOnboarding topts) (GH.effectiveSecurity topts) issues
    have hl := List.length_filter_le
      (fun i => GH.isOpenMeta (GH.getMetadata (some i))) issues
    simp only [GH.buildIssueTriageSnapshot, h]
    simp
    omega

/-- Witness for C10: the fallbacks at the fully empty document-like object. -/
theorem analytics_defensive_defaults_witness :
    GH.extractTitle (some {}) = none ∧
    (GH.buildPullRequestAttentionInsights [{}] {} 0).topContributors =
      [⟨"unknown", 1⟩] :=
  ⟨analytics_defensive_defaults.2.2.2.2.1 {} rfl,
   analytics_defensive_defaults.2.2.2.2.2.1 {} rfl⟩

/-- The contributor-map component of the `forEach` fold of
`buildPullRequestAttentionInsights` ignores the stale bookkeeping. -/
theorem attention_fold_fst (s r : Int) (prs : List GH.DocLike)
    (acc : List GH.ContributorStat × List GH.StalePR) :
    (prs.foldl (GH.attentionStep s r) acc).1 =
      prs.foldl (fun st pr => GH.bumpAuthor st (GH.authorKeyOf pr)) acc.1 := by
  induction prs generalizing acc with
  | nil => rfl
  | cons pr t ih =>
    rw [List.foldl_cons, List.foldl_cons, ih]
    rfl

/-- The recorded count of the empty stat list. -/
theorem countFor_nil (x : String) : GH.countFor [] x = 0 := rfl

/-- Unfolding `countFor` one entry at a time. -/
theorem countFor_cons (s : GH.ContributorStat) (t : List GH.ContributorStat)
    (x : String) :
    GH.countFor (s :: t) x =
      if s.author = x then s.pullRequestCount else GH.countFor t x := by
  by_cases h : s.author = x <;> simp [GH.countFor, List.find?, h]

/-- `bumpAuthor` increments exactly the bumped author's recorded count. -/
theorem bumpAuthor_countFor (st : List GH.ContributorStat) (a x : String) :
    GH.countFor (GH.bumpAuthor st a) x =
      if x = a then GH.countFor st a + 1 else GH.countFor st x := by
  induction st with
  | nil =>
    by_cases hx : x = a
    · subst hx
      simp [GH.bumpAuthor, countFor_cons, countFor_nil]
    · have hax : ¬ a = x := fun h => hx h.symm
      simp [GH.bumpAuthor, countFor_cons, countFor_nil, hx, hax]
  | cons s t ih =>
    by_cases hs : s.author = a
    · by_cases hx : s.author = x
      · have hxa : x = a := by rw [← hx, hs]
        simp [GH.bumpAuthor, hs, countFor_cons, hx, hxa]
      · have hxa : ¬ x = a := fun h => hx (by rw [hs, ← h])
        have hax : ¬ a = x := fun h => hxa h.symm
        simp [GH.bumpAuthor, hs, countFor_cons, hx, hxa, hax]
    · by_cases hx : s.author = x
      · have hxa : ¬ x = a := fun h => hs (by rw [hx, h])
        simp [GH.bumpAuthor, hs, countFor_cons, hx, hxa]
      · simp [GH.bumpAuthor, hs, countFor_cons, hx, ih]

/-- Every author present after a bump was present before or is the bumped
one. -/
theorem bumpAuthor_mem_author (st : List GH.ContributorStat) (a x : String)
    (h : x ∈ (GH.bumpAuthor st a).map GH.ContributorStat.author) :
    x ∈ st.map GH.ContributorStat.author ∨ x = a := by
  induction st with
  | nil => simpa [GH.bumpAuthor] using h
  | cons s t ih =>
    by_cases hs : s.author = a
    · simp only [GH.bumpAuthor, if_pos hs, List.map_cons, List.mem_cons] at h
      rcases h with h | h
      · exact Or.inl (List.mem_cons.mpr (Or.inl h))
      · exact Or.inl (List.mem_cons.mpr (Or.inr h))
    · simp only [GH.bumpAuthor, if_neg hs, List.map_cons, List.mem_cons] at h
      rcases h with h | h
      · exact Or.inl (List.mem_cons.mpr (Or.inl h))
      · rcases ih h with h2 | h2
        · exact Or.inl (List.mem_cons.mpr (Or.inr h2))
        · exact Or.inr h2

/-- `bumpAuthor` keeps the author keys distinct. -/
theorem bumpAuthor_nodup (st : List GH.ContributorStat) (a : String)
    (h : (st.map GH.ContributorStat.author).Nodup) :
    ((GH.bumpAuthor st a).map GH.ContributorStat.author).Nodup := by
  induction st with
  | nil => simp [GH.bumpAuthor]
  | cons s t ih =>
    simp only [List.map_cons, List.nodup_cons] at h
    by_cases hs : s.author = a
    · simpa [GH.bumpAuthor, hs, List.nodup_cons] using h
    · have ht := ih h.2
      simp only [GH.bumpAuthor, if_neg hs, List.map_cons, List.nodup_cons]
      refine ⟨fun hmem => ?_, ht⟩
      rcases bumpAuthor_mem_author t a s.author hmem with h2 | h2
      · exact h.1 h2
      · exact hs h2

/-- With distinct author keys, each entry's stored count is the recorded
count of its author. -/
theorem mem_countFor (st : List GH.ContributorStat)
    (h : (st.map GH.ContributorStat.author).Nodup)
    (s : GH.ContributorStat) (hs : s ∈ st) :
    s.pullRequestCount = GH.countFor st s.author := by
  induction st with
  | nil => cases hs
  | cons hd t ih =>
    simp only [List.map_cons, List.nodup_cons] at h
    rcases List.mem_cons.mp hs with rfl | hmem
    · simp [GH.countFor, List.find?]
    · have hne : ¬ hd.author = s.author := by
        intro he
        exact h.1 (he ▸ List.mem_map.mpr ⟨s, hmem, rfl⟩)
      have hne2 : ¬ s.author = hd.author := fun he => hne he.symm
      simp only [GH.countFor, List.find?]
      rw [decide_eq_false hne]
      exact ih h.2 hmem

/-- The fold of `bumpAuthor` over the input adds, for every author, exactly
the number of documents keyed to that author. -/
theorem fold_countFor (prs : List GH.DocLike) (st : List GH.ContributorStat)
    (x : String) :
    GH.countFor (prs.foldl (fun st pr => GH.bumpAuthor st (GH.authorKeyOf pr)) st) x =
      GH.countFor st x + (prs.filter (fun pr => GH.authorKeyOf pr = x)).length := by
  induction prs generalizing st with
  | nil => simp
  | cons pr t ih =>
    rw [List.foldl_cons, ih, bumpAuthor_countFor]
    by_cases hx : x = GH.authorKeyOf pr <;>
      simp [List.filter_cons, hx, eq_comm] <;> omega

/-- The accumulated contributor map has distinct author keys. -/
theorem contributorStatsOf_nodup (prs : List GH.DocLike) :
    ((GH.contributorStatsOf prs).map GH.ContributorStat.author).Nodup := by
  have h : ∀ (l : List GH.DocLike) (st : List GH.ContributorStat),
      (st.map GH.ContributorStat.author).Nodup →
      ((l.foldl (fun st pr => GH.bumpAuthor st (GH.authorKeyOf pr)) st).map
        GH.ContributorStat.author).Nodup := by
    intro l
    induction l with
    | nil => intro st hst; simpa using hst
    | cons pr t ih =>
      intro st hst
      exact ih _ (bumpAuthor_nodup st _ hst)
  exact h prs [] (by simp)

/-- C9.  Attention insights contributors: counts are accumulated per author
key (login, or `"unknown"` when absent) in first-encountered order with
distinct keys; `topContributors` is that map sorted by count descending —
any tied pair keeps its first-encountered relative order — truncated to
`topContributorCount`; and every listed count equals the number of input
documents keyed to that author. -/
theorem buildPullRequestAttentionInsights_contributors (prs : List GH.DocLike)
    (options : GH.AttentionOptions) (now : Int) :
    ∃ sorted : List GH.ContributorStat,
      (GH.buildPullRequestAttentionInsights prs options now).topContributors =
        sorted.take (options.topContributorCount.getD 3) ∧
      sorted.Perm (GH.contributorStatsOf prs) ∧
      sorted.Pairwise (fun a b => b.pullRequestCount ≤ a.pullRequestCount) ∧
      (∀ x y : GH.ContributorStat, [x, y].Sublist (GH.contributorStatsOf prs) →
        x.pullRequestCount = y.pullRequestCount → [x, y].Sublist sorted) ∧
      (∀ s ∈ GH.contributorStatsOf prs,
        s.pullRequestCount =
          (prs.filter (fun pr => GH.authorKeyOf pr = s.author)).length) ∧
      ((GH.contributorStatsOf prs).map GH.ContributorStat.author).Nodup := by
  have htrans : ∀ a b c : GH.ContributorStat,
      GH.byCountDesc a b = true → GH.byCountDesc b c = true →
      GH.byCountDesc a c = true := by
    intro a b c hab hbc
    simp [GH.byCountDesc] at hab hbc ⊢
    omega
  have htotal : ∀ a b : GH.ContributorStat,
      (GH.byCountDesc a b || GH.byCountDesc b a) = true := by
    intro a b
    simp [GH.byCountDesc]
    omega
  refine ⟨(GH.contributorStatsOf prs).mergeSort GH.byCountDesc, ?_, ?_, ?_, ?_, ?_, ?_⟩
  · have h1 := attention_fold_fst (options.staleAfterDays.getD 7)
      (options.referenceDate.getD now) prs ([], [])
    simp only [GH.buildPullRequestAttentionInsights, h1, GH.contributorStatsOf]
  · exact List.mergeSort_perm _ _
  · have := List.sorted_mergeSort htrans htotal
      (GH.contributorStatsOf prs)
    exact this.imp (by intro a b h; simpa [GH.byCountDesc] using h)
  · intro x y hsub htie
    exact List.sublist_mergeSort htrans htotal
      (by simp [GH.byCountDesc]; omega) hsub
  · intro s hs
    have h1 := mem_countFor (GH.contributorStatsOf prs) (contributorStatsOf_nodup prs) s hs
    have h2 := fold_countFor prs [] s.author
    simpa [GH.contributorStatsOf, GH.countFor] using h1.trans h2
  · exact contributorStatsOf_nodup prs



/-- Witness for C9: authors `[a, a, b]` with the default
`topContributorCount = 3` yield contributors `[{a, 2}, {b, 1}]`. -/
theorem buildPullRequestAttentionInsights_contributors_witness :
    (GH.buildPullRequestAttentionInsights [prByA, prByA, prByB] {} 0).topContributors =
      [⟨"a", 2⟩, ⟨"b", 1⟩] ∧
    ∃ sorted : List GH.ContributorStat,
      (GH.buildPullRequestAttentionInsights [prByA, prByA, prByB] {} 0).topContributors =
        sorted.take 3 ∧ sorted.Perm (GH.contributorStatsOf [prByA, prByA, prByB]) := by
  constructor
  · simp [GH.buildPullRequestAttentionInsights, GH.attentionStep, GH.authorKeyOf,
      GH.authorOf, GH.getMetadata, GH.jsTruthy, GH.jsStr, GH.bumpAuthor, GH.toDate,
      GH.differenceInDays, List.mergeSort, GH.byCountDesc, prByA, prByB]
  · obtain ⟨s, h1, h2, -⟩ :=
      buildPullRequestAttentionInsights_contributors [prByA, prByA, prByB] {} 0
    exact ⟨s, h1, h2⟩

/-- The cap guard, arithmetically, for a configured (nonzero) cap. -/
theorem capReached_some (K n : Nat) (hK : K ≠ 0) :
    GH.capReached (some K) n = decide (K ≤ n) := by
  simp [GH.capReached, hK]

/-- Reduction of a conditional on the literal `true`. -/
theorem ite_true_bool {α : Sort _} (x y : α) :
    (if (true : Bool) = true then x else y) = x := rfl

/-- Reduction of a conditional on the literal `false`. -/
theorem ite_false_bool {α : Sort _} (x y : α) :
    (if (false : Bool) = true then x else y) = y := rfl

/-- Closed form of the per-page pull-request loop under a configured cap: it
emits the page's items up to the remaining budget, in order, and breaks iff
items remain beyond the budget. -/
theorem prProcessPage_some (K : Nat) (hK : K ≠ 0) (r : String)
    (page : List GH.PRRaw) :
    ∀ docs : List GH.GHDoc,
      GH.prProcessPage (some K) r page docs =
        (docs ++ (page.take (K - docs.length)).map (GH.prToDoc r),
         decide (K - docs.length < page.length)) := by
  induction page with
  | nil => intro docs; simp [GH.prProcessPage]
  | cons pr rest ih =>
    intro docs
    by_cases hc : K ≤ docs.length
    · have h0 : K - docs.length = 0 := by omega
      simp [GH.prProcessPage, capReached_some K _ hK, hc, h0]
    · simp only [GH.prProcessPage, capReached_some K _ hK]
      rw [if_neg (by simpa using hc)]
      rw [ih (docs ++ [GH.prToDoc r pr])]
      simp only [Prod.mk.injEq]
      have hlen : (docs ++ [GH.prToDoc r pr]).length = docs.length + 1 := by simp
      have h1 : K - docs.length = (K - (docs.length + 1)) + 1 := by omega
      constructor
      · rw [hlen, h1, List.take_succ_cons, List.map_cons, List.append_assoc]
        rfl
      · rw [hlen]
        exact decide_eq_decide.mpr (by simp; omega)

/-- Closed form of the per-page pull-request loop without a cap: every item
of the page is emitted in order. -/
theorem prProcessPage_none (r : String) (page : List GH.PRRaw) :
    ∀ docs : List GH.GHDoc,
      GH.prProcessPage none r page docs =
        (docs ++ page.map (GH.prToDoc r), false) := by
  induction page with
  | nil => intro docs; simp [GH.prProcessPage]
  | cons pr rest ih =>
    intro docs
    simp [GH.prProcessPage, GH.capReached, ih, List.append_assoc]

/-- The uncapped pagination loop only extends its accumulator. -/
theorem prFetchLoop_none_ext (pp : Nat) (r : String)
    (pages : List (List GH.PRRaw)) :
    ∀ docs, ∃ d, (GH.prFetchLoop none pp r pages docs).1 = docs ++ d := by
  induction pages with
  | nil => intro docs; exact ⟨[], by simp [GH.prFetchLoop]⟩
  | cons page rest ih =>
    intro docs
    by_cases he : page.length = 0
    · exact ⟨[], by simp [GH.prFetchLoop, he]⟩
    · by_cases hs : page.length < pp
      · refine ⟨page.map (GH.prToDoc r), ?_⟩
        simp [GH.prFetchLoop, he, prProcessPage_none, hs]
      · obtain ⟨d, hd⟩ := ih (docs ++ page.map (GH.prToDoc r))
        refine ⟨page.map (GH.prToDoc r) ++ d, ?_⟩
        simp [GH.prFetchLoop, he, prProcessPage_none, hs, hd, List.append_assoc]

/-- Under a configured cap the pull-request pagination loop produces exactly
the first `K` documents of the uncapped run. -/
theorem prFetchLoop_take (K pp : Nat) (hK : K ≠ 0) (r : String)
    (pages : List (List GH.PRRaw)) :
    ∀ docs, docs.length ≤ K →
      (GH.prFetchLoop (some K) pp r pages docs).1 =
        ((GH.prFetchLoop none pp r pages docs).1).take K := by
  induction pages with
  | nil =>
    intro docs h
    simp [GH.prFetchLoop, List.take_of_length_le h]
  | cons page rest ih =>
    intro docs h
    by_cases he : page.length = 0
    · simp [GH.prFetchLoop, he, List.take_of_length_le h]
    · simp only [GH.prFetchLoop, if_neg he, prProcessPage_some K hK r page docs,
        prProcessPage_none]
      by_cases hb : K - docs.length < page.length
      · rw [decide_eq_true hb]
        have hklen : K ≤ (docs ++ page.map (GH.prToDoc r)).length := by
          simp; omega
        have htk : (docs ++ (page.take (K - docs.length)).map (GH.prToDoc r)) =
            ((docs ++ page.map (GH.prToDoc r)).take K) := by
          rw [List.take_append_eq_append_take, List.take_of_length_le h,
            ← List.map_take]
        by_cases hs : page.length < pp
        · simp only [ite_true_bool, ite_false_bool, if_true, if_false, eq_self_iff_true, Bool.false_eq_true, if_pos hs]
          exact htk
        · obtain ⟨d, hd⟩ := prFetchLoop_none_ext pp r rest (docs ++ page.map (GH.prToDoc r))
          simp only [ite_true_bool, ite_false_bool, if_true, if_false, eq_self_iff_true, Bool.false_eq_true, if_neg hs, hd]
          rw [List.take_append_of_le_length hklen]
          exact htk
      · rw [decide_eq_false hb]
        have hall : page.take (K - docs.length) = page := by
          apply List.take_of_length_le
          omega
        have h' : (docs ++ page.map (GH.prToDoc r)).length ≤ K := by
          simp
          omega
        rw [hall]
        by_cases hs : page.length < pp
        · simp only [ite_false_bool, if_false, Bool.false_eq_true, if_pos hs]
          rw [List.take_of_length_le h']
        · simp only [ite_false_bool, if_false, Bool.false_eq_true, if_neg hs]
          exact ih (docs ++ page.map (GH.prToDoc r)) h'

/-- Every run of the pagination loop issues at least one page request. -/
theorem prFetchLoop_count_pos (m : Option Nat) (pp : Nat) (r : String)
    (pages : List (List GH.PRRaw)) (docs : List GH.GHDoc) :
    1 ≤ (GH.prFetchLoop m pp r pages docs).2 := by
  cases pages with
  | nil => simp [GH.prFetchLoop]
  | cons page rest =>
    by_cases he : page.length = 0
    · simp [GH.prFetchLoop, he]
    · simp only [GH.prFetchLoop, if_neg he]
      by_cases hb : (GH.prProcessPage m r page docs).2
      · simp [hb]
      · by_cases hs : page.length < pp <;> simp [hb, hs] <;> omega

/-- The capped run never issues more page requests than the uncapped run. -/
theorem prFetchLoop_count_le (K pp : Nat) (hK : K ≠ 0) (r : String)
    (pages : List (List GH.PRRaw)) :
    ∀ docs, docs.length ≤ K →
      (GH.prFetchLoop (some K) pp r pages docs).2 ≤
        (GH.prFetchLoop none pp r pages docs).2 := by
  induction pages with
  | nil => intro docs h; simp [GH.prFetchLoop]
  | cons page rest ih =>
    intro docs h
    by_cases he : page.length = 0
    · simp [GH.prFetchLoop, he]
    · simp only [GH.prFetchLoop, if_neg he, prProcessPage_some K hK r page docs,
        prProcessPage_none]
      by_cases hb : K - docs.length < page.length
      · rw [decide_eq_true hb]
        by_cases hs : page.length < pp
        · simp [hs]
        · have := prFetchLoop_count_pos (none : Option Nat) pp r rest
            (docs ++ page.map (GH.prToDoc r))
          simp only [ite_true_bool, ite_false_bool, if_true, if_false, eq_self_iff_true, Bool.false_eq_true, if_neg hs]
          omega
      · rw [decide_eq_false hb]
        have hall : page.take (K - docs.length) = page := by
          apply List.take_of_length_le
          omega
        have h' : (docs ++ page.map (GH.prToDoc r)).length ≤ K := by
          simp
          omega
        rw [hall]
        by_cases hs : page.length < pp
        · simp [hs]
        · simp only [ite_false_bool, if_false, Bool.false_eq_true, if_neg hs]
          have := ih (docs ++ page.map (GH.prToDoc r)) h'
          omega

/-- Once enough raw items to meet the cap have arrived within the first `k`
pages, the capped loop requests at most one page more. -/
theorem prFetchLoop_cap_pages (K pp : Nat) (hK : K ≠ 0) (r : String)
    (pages : List (List GH.PRRaw)) :
    ∀ docs (k : Nat), K ≤ docs.length + (pages.take k).flatten.length →
      (GH.prFetchLoop (some K) pp r pages docs).2 ≤ k + 1 := by
  induction pages with
  | nil => intro docs k _; simp [GH.prFetchLoop]
  | cons page rest ih =>
    intro docs k hcum
    by_cases he : page.length = 0
    · simp [GH.prFetchLoop, he]
    · simp only [GH.prFetchLoop, if_neg he, prProcessPage_some K hK r page docs]
      by_cases hb : K - docs.length < page.length
      · rw [decide_eq_true hb]
        simp only [ite_true_bool, if_true, eq_self_iff_true]
        omega
      · rw [decide_eq_false hb]
        have hall : page.take (K - docs.length) = page := by
          apply List.take_of_length_le
          omega
        rw [hall]
        by_cases hs : page.length < pp
        · simp [hs]
        · simp only [ite_false_bool, if_false, Bool.false_eq_true, if_neg hs]
          cases k with
          | zero =>
            exfalso
            have h2 : K ≤ docs.length := by simpa using hcum
            omega
          | succ k' =>
            have hcum' : K ≤ (docs ++ page.map (GH.prToDoc r)).length +
                (rest.take k').flatten.length := by
              simp only [List.take_succ_cons, List.flatten_cons,
                List.length_append, List.length_map] at hcum ⊢
              omega
            have := ih (docs ++ page.map (GH.prToDoc r)) k' hcum'
            omega

/-- The documents the capped pull-request loop appends are the normalizations
of a prefix of the raw item stream, in arrival order. -/
theorem prFetchLoop_order (K pp : Nat) (hK : K ≠ 0) (r : String)
    (pages : List (List GH.PRRaw)) :
    ∀ docs, ∃ n,
      (GH.prFetchLoop (some K) pp r pages docs).1 =
        docs ++ (pages.flatten.take n).map (GH.prToDoc r) := by
  induction pages with
  | nil => intro docs; exact ⟨0, by simp [GH.prFetchLoop]⟩
  | cons page rest ih =>
    intro docs
    by_cases he : page.length = 0
    · have hpe : page = [] := List.length_eq_zero.mp he
      subst hpe
      exact ⟨0, by simp [GH.prFetchLoop]⟩
    · simp only [GH.prFetchLoop, if_neg he, prProcessPage_some K hK r page docs]
      by_cases hb : K - docs.length < page.length
      · rw [decide_eq_true hb]
        refine ⟨K - docs.length, ?_⟩
        simp only [ite_true_bool, if_true, eq_self_iff_true, List.flatten_cons]
        rw [List.take_append_of_le_length (by omega)]
      · rw [decide_eq_false hb]
        have hall : page.take (K - docs.length) = page := by
          apply List.take_of_length_le
          omega
        rw [hall]
        by_cases hs : page.length < pp
        · refine ⟨page.length, ?_⟩
          simp only [ite_false_bool, if_false, Bool.false_eq_true, if_pos hs, List.flatten_cons]
          rw [List.take_left]
        · simp only [ite_false_bool, if_false, Bool.false_eq_true, if_neg hs]
          obtain ⟨n', hn'⟩ := ih (docs ++ page.map (GH.prToDoc r))
          refine ⟨page.length + n', ?_⟩
          simp only [List.flatten_cons]
          rw [List.take_append, hn', List.map_append, List.append_assoc]

/-- The non-pull-request test applied while paginating issues. -/
theorem issueNonPR_def (i : GH.IssueRaw) :
    (fun i : GH.IssueRaw => !i.pull_request) i = !i.pull_request := rfl

/-- Closed form of the per-page issue loop without a cap: exactly the
non-pull-request items are emitted, in order. -/
theorem issueProcessPage_none (r : String) (page : List GH.IssueRaw) :
    ∀ docs : List GH.GHDoc,
      GH.issueProcessPage none r page docs =
        (docs ++ (page.filter (fun i => !i.pull_request)).map (GH.issueToDoc r),
         false) := by
  induction page with
  | nil => intro docs; simp [GH.issueProcessPage]
  | cons iss rest ih =>
    intro docs
    by_cases hp : iss.pull_request <;>
      simp [GH.issueProcessPage, GH.capReached, hp, ih, List.filter_cons,
        List.append_assoc]

/-- Joint behaviour of the capped per-page issue loop relative to the
uncapped one: the capped output is the `K`-prefix of the uncapped output and
never exceeds `K`; without a break the two agree; a break happens exactly at
the cap. -/
theorem issueProcessPage_facts (K : Nat) (hK : K ≠ 0) (r : String)
    (page : List GH.IssueRaw) :
    ∀ docs : List GH.GHDoc, docs.length ≤ K →
      (GH.issueProcessPage (some K) r page docs).1 =
        ((GH.issueProcessPage none r page docs).1).take K ∧
      (GH.issueProcessPage (some K) r page docs).1.length ≤ K ∧
      ((GH.issueProcessPage (some K) r page docs).2 = false →
        (GH.issueProcessPage (some K) r page docs).1 =
          (GH.issueProcessPage none r page docs).1) ∧
      ((GH.issueProcessPage (some K) r page docs).2 = true →
        (GH.issueProcessPage (some K) r page docs).1.length = K) := by
  induction page with
  | nil =>
    intro docs h
    refine ⟨by simp [GH.issueProcessPage, List.take_of_length_le h], ?_, ?_, ?_⟩
    · simpa [GH.issueProcessPage] using h
    · intro; simp [GH.issueProcessPage]
    · intro hcontra; simp [GH.issueProcessPage] at hcontra
  | cons iss rest ih =>
    intro docs h
    by_cases hcap : K ≤ docs.length
    · have hlen : docs.length = K := by omega
      have hc : GH.issueProcessPage (some K) r (iss :: rest) docs = (docs, true) := by
        simp [GH.issueProcessPage, capReached_some K _ hK, hcap]
      have hu := issueProcessPage_none r (iss :: rest) docs
      refine ⟨?_, ?_, ?_, ?_⟩
      · rw [hc, hu]
        rw [List.take_append_of_le_length (by omega), List.take_of_length_le h]
      · rw [hc]; exact h
      · intro hcontra; rw [hc] at hcontra; simp at hcontra
      · intro; rw [hc]; exact hlen
    · have hne : ¬ GH.capReached (some K) docs.length = true := by
        rw [capReached_some K _ hK]; simpa using hcap
      by_cases hp : iss.pull_request
      · have hcs : GH.issueProcessPage (some K) r (iss :: rest) docs =
            GH.issueProcessPage (some K) r rest docs := by
          simp [GH.issueProcessPage, hne, hp]
        have hus : GH.issueProcessPage none r (iss :: rest) docs =
            GH.issueProcessPage none r rest docs := by
          simp [GH.issueProcessPage, GH.capReached, hp]
        rw [hcs, hus]
        exact ih docs h
      · have hcs : GH.issueProcessPage (some K) r (iss :: rest) docs =
            GH.issueProcessPage (some K) r rest (docs ++ [GH.issueToDoc r iss]) := by
          simp [GH.issueProcessPage, hne, hp]
        have hus : GH.issueProcessPage none r (iss :: rest) docs =
            GH.issueProcessPage none r rest (docs ++ [GH.issueToDoc r iss]) := by
          simp [GH.issueProcessPage, GH.capReached, hp]
        rw [hcs, hus]
        exact ih (docs ++ [GH.issueToDoc r iss]) (by simp; omega)

/-- A break cannot happen while the accumulated count is below the cap and
the page is empty; conversely, if the capped per-page issue loop does not
break on a nonempty page, the count was below the cap on entry. -/
theorem issueProcessPage_no_break_lt (K : Nat) (hK : K ≠ 0) (r : String)
    (iss : GH.IssueRaw) (rest : List GH.IssueRaw) (docs : List GH.GHDoc)
    (h : (GH.issueProcessPage (some K) r (iss :: rest) docs).2 = false) :
    docs.length < K := by
  by_cases hcap : K ≤ docs.length
  · exfalso
    have hc : GH.issueProcessPage (some K) r (iss :: rest) docs = (docs, true) := by
      simp [GH.issueProcessPage, capReached_some K _ hK, hcap]
    rw [hc] at h
    simp at h
  · omega

/-- The capped per-page issue loop emits the non-pull-request items of a
prefix of the page; the whole page when it does not break. -/
theorem issueProcessPage_order (K : Nat) (hK : K ≠ 0) (r : String)
    (page : List GH.IssueRaw) :
    ∀ docs : List GH.GHDoc, ∃ t, t ≤ page.length ∧
      (GH.issueProcessPage (some K) r page docs).1 =
        docs ++ ((page.take t).filter (fun i => !i.pull_request)).map
          (GH.issueToDoc r) ∧
      ((GH.issueProcessPage (some K) r page docs).2 = false → t = page.length) := by
  induction page with
  | nil =>
    intro docs
    exact ⟨0, by simp [GH.issueProcessPage], by simp [GH.issueProcessPage]⟩
  | cons iss rest ih =>
    intro docs
    by_cases hcap : K ≤ docs.length
    · have hc : GH.issueProcessPage (some K) r (iss :: rest) docs = (docs, true) := by
        simp [GH.issueProcessPage, capReached_some K _ hK, hcap]
      refine ⟨0, by simp, by rw [hc]; simp, ?_⟩
      intro hcontra
      rw [hc] at hcontra
      simp at hcontra
    · have hne : ¬ GH.capReached (some K) docs.length = true := by
        rw [capReached_some K _ hK]; simpa using hcap
      by_cases hp : iss.pull_request
      · have hcs : GH.issueProcessPage (some K) r (iss :: rest) docs =
            GH.issueProcessPage (some K) r rest docs := by
          simp [GH.issueProcessPage, hne, hp]
        obtain ⟨t, htle, hteq, htfull⟩ := ih docs
        refine ⟨t + 1, by simp; omega, ?_, ?_⟩
        · rw [hcs, hteq]
          simp [List.take_succ_cons, List.filter_cons, hp]
        · intro hfull
          rw [hcs] at hfull
          simp [htfull hfull]
      · have hcs : GH.issueProcessPage (some K) r (iss :: rest) docs =
            GH.issueProcessPage (some K) r rest (docs ++ [GH.issueToDoc r iss]) := by
          simp [GH.issueProcessPage, hne, hp]
        obtain ⟨t, htle, hteq, htfull⟩ := ih (docs ++ [GH.issueToDoc r iss])
        refine ⟨t + 1, by simp; omega, ?_, ?_⟩
        · rw [hcs, hteq]
          simp [List.take_succ_cons, List.filter_cons, hp, List.append_assoc]
        · intro hfull
          rw [hcs] at hfull
          simp [htfull hfull]

/-- The uncapped issue pagination loop only extends its accumulator. -/
theorem issueFetchLoop_none_ext (pp : Nat) (r : String)
    (pages : List (List GH.IssueRaw)) :
    ∀ docs, ∃ d, (GH.issueFetchLoop none pp r pages docs).1 = docs ++ d := by
  induction pages with
  | nil => intro docs; exact ⟨[], by simp [GH.issueFetchLoop]⟩
  | cons page rest ih =>
    intro docs
    by_cases he : page.length = 0
    · exact ⟨[], by simp [GH.issueFetchLoop, he]⟩
    · by_cases hs : page.length < pp
      · refine ⟨(page.filter (fun i => !i.pull_request)).map (GH.issueToDoc r), ?_⟩
        simp [GH.issueFetchLoop, he, issueProcessPage_none, hs]
      · obtain ⟨d, hd⟩ := ih
          (docs ++ (page.filter (fun i => !i.pull_request)).map (GH.issueToDoc r))
        refine ⟨(page.filter (fun i => !i.pull_request)).map (GH.issueToDoc r) ++ d, ?_⟩
        simp [GH.issueFetchLoop, he, issueProcessPage_none, hs, hd, List.append_assoc]

/-- Under a configured cap the issue pagination loop produces exactly the
first `K` documents of the uncapped run. -/
theorem issueFetchLoop_take (K pp : Nat) (hK : K ≠ 0) (r : String)
    (pages : List (List GH.IssueRaw)) :
    ∀ docs, docs.length ≤ K →
      (GH.issueFetchLoop (some K) pp r pages docs).1 =
        ((GH.issueFetchLoop none pp r pages docs).1).take K := by
  induction pages with
  | nil => intro docs h; simp [GH.issueFetchLoop, List.take_of_length_le h]
  | cons page rest ih =>
    intro docs h
    by_cases he : page.length = 0
    · simp [GH.issueFetchLoop, he, List.take_of_length_le h]
    · have hpp := issueProcessPage_none r page docs
      obtain ⟨hTake, hLen, hNoBr, hBr⟩ := issueProcessPage_facts K hK r page docs h
      have hT : (GH.issueProcessPage (some K) r page docs).1 =
          (docs ++ (page.filter (fun i => !i.pull_request)).map
            (GH.issueToDoc r)).take K := by
        rw [hTake, hpp]
      have hN : (GH.issueProcessPage (some K) r page docs).2 = false →
          (GH.issueProcessPage (some K) r page docs).1 =
            docs ++ (page.filter (fun i => !i.pull_request)).map (GH.issueToDoc r) :=
        fun hf => by rw [hNoBr hf, hpp]
      simp only [GH.issueFetchLoop, if_neg he, hpp]
      by_cases hb : (GH.issueProcessPage (some K) r page docs).2 = true
      · rw [if_pos hb]
        have hlenK : (GH.issueProcessPage (some K) r page docs).1.length = K := hBr hb
        have hU : K ≤ (docs ++ (page.filter (fun i => !i.pull_request)).map
            (GH.issueToDoc r)).length := by
          rw [hT, List.length_take] at hlenK
          omega
        by_cases hs : page.length < pp
        · simp only [ite_false_bool, if_pos hs]
          exact hT
        · obtain ⟨d, hd⟩ := issueFetchLoop_none_ext pp r rest
            (docs ++ (page.filter (fun i => !i.pull_request)).map (GH.issueToDoc r))
          simp only [ite_false_bool, if_neg hs, hd]
          rw [List.take_append_of_le_length hU]
          exact hT
      · have hbf : (GH.issueProcessPage (some K) r page docs).2 = false := by
          revert hb
          cases (GH.issueProcessPage (some K) r page docs).2 <;> simp
        have hEq := hN hbf
        have hLe : (docs ++ (page.filter (fun i => !i.pull_request)).map
            (GH.issueToDoc r)).length ≤ K := by
          rw [← hEq]
          exact hLen
        rw [if_neg hb]
        by_cases hs : page.length < pp
        · simp only [ite_false_bool, if_pos hs]
          rw [hEq, List.take_of_length_le hLe]
        · simp only [ite_false_bool, if_neg hs]
          rw [hEq]
          exact ih _ hLe

/-- Every run of the issue pagination loop issues at least one page
request. -/
theorem issueFetchLoop_count_pos (m : Option Nat) (pp : Nat) (r : String)
    (pages : List (List GH.IssueRaw)) (docs : List GH.GHDoc) :
    1 ≤ (GH.issueFetchLoop m pp r pages docs).2 := by
  cases pages with
  | nil => simp [GH.issueFetchLoop]
  | cons page rest =>
    by_cases he : page.length = 0
    · simp [GH.issueFetchLoop, he]
    · simp only [GH.issueFetchLoop, if_neg he]
      by_cases hb : (GH.issueProcessPage m r page docs).2
      · simp [hb]
      · by_cases hs : page.length < pp <;> simp [hb, hs] <;> omega

/-- The capped issue run never issues more page requests than the uncapped
run. -/
theorem issueFetchLoop_count_le (K pp : Nat) (hK : K ≠ 0) (r : String)
    (pages : List (List GH.IssueRaw)) :
    ∀ docs, docs.length ≤ K →
      (GH.issueFetchLoop (some K) pp r pages docs).2 ≤
        (GH.issueFetchLoop none pp r pages docs).2 := by
  induction pages with
  | nil => intro docs h; simp [GH.issueFetchLoop]
  | cons page rest ih =>
    intro docs h
    by_cases he : page.length = 0
    · simp [GH.issueFetchLoop, he]
    · have hpp := issueProcessPage_none r page docs
      obtain ⟨hTake, hLen, hNoBr, hBr⟩ := issueProcessPage_facts K hK r page docs h
      have hN : (GH.issueProcessPage (some K) r page docs).2 = false →
          (GH.issueProcessPage (some K) r page docs).1 =
            docs ++ (page.filter (fun i => !i.pull_request)).map (GH.issueToDoc r) :=
        fun hf => by rw [hNoBr hf, hpp]
      simp only [GH.issueFetchLoop, if_neg he, hpp]
      by_cases hb : (GH.issueProcessPage (some K) r page docs).2 = true
      · rw [if_pos hb]
        by_cases hs : page.length < pp
        · simp [hs]
        · have := issueFetchLoop_count_pos (none : Option Nat) pp r rest
            (docs ++ (page.filter (fun i => !i.pull_request)).map (GH.issueToDoc r))
          simp only [ite_false_bool, if_neg hs]
          omega
      · have hbf : (GH.issueProcessPage (some K) r page docs).2 = false := by
          revert hb
          cases (GH.issueProcessPage (some K) r page docs).2 <;> simp
        have hEq := hN hbf
        have hLe : (docs ++ (page.filter (fun i => !i.pull_request)).map
            (GH.issueToDoc r)).length ≤ K := by
          rw [← hEq]
          exact hLen
        rw [if_neg hb]
        by_cases hs : page.length < pp
        · simp [hs]
        · simp only [ite_false_bool, if_neg hs]
          rw [hEq]
          have := ih _ hLe
          omega


/-- Once enough raw non-pull-request items to meet the cap have arrived
within the first `k` pages, the capped issue loop requests at most one page
more (skipped pull-request items never count toward the cap). -/
theorem issueFetchLoop_cap_pages (K pp : Nat) (hK : K ≠ 0) (r : String)
    (pages : List (List GH.IssueRaw)) :
    ∀ docs (k : Nat),
      K ≤ docs.length +
        ((pages.take k).flatten.filter (fun i => !i.pull_request)).length →
      (GH.issueFetchLoop (some K) pp r pages docs).2 ≤ k + 1 := by
  induction pages with
  | nil => intro docs k _; simp [GH.issueFetchLoop]
  | cons page rest ih =>
    intro docs k hcum
    by_cases he : page.length = 0
    · simp [GH.issueFetchLoop, he]
    · simp only [GH.issueFetchLoop, if_neg he]
      by_cases hb : (GH.issueProcessPage (some K) r page docs).2 = true
      · rw [if_pos hb]
        exact Nat.succ_le_succ (Nat.zero_le k)
      · have hbf : (GH.issueProcessPage (some K) r page docs).2 = false := by
          revert hb
          cases (GH.issueProcessPage (some K) r page docs).2 <;> simp
        have hlt : docs.length < K := by
          cases page with
          | nil => simp at he
          | cons iss rest' =>
            exact issueProcessPage_no_break_lt K hK r iss rest' docs hbf
        obtain ⟨hTake, hLen, hNoBr, hBr⟩ :=
          issueProcessPage_facts K hK r page docs (le_of_lt hlt)
        have hEq : (GH.issueProcessPage (some K) r page docs).1 =
            docs ++ (page.filter (fun i => !i.pull_request)).map (GH.issueToDoc r) := by
          rw [hNoBr hbf, issueProcessPage_none]
        rw [if_neg hb]
        by_cases hs : page.length < pp
        · rw [if_pos hs]
          exact Nat.succ_le_succ (Nat.zero_le k)
        · rw [if_neg hs]
          cases k with
          | zero =>
            exfalso
            have h2 : K ≤ docs.length := by simpa using hcum
            omega
          | succ k' =>
            have hcum' : K ≤ (docs ++ (page.filter (fun i => !i.pull_request)).map
                (GH.issueToDoc r)).length +
                ((rest.take k').flatten.filter (fun i => !i.pull_request)).length := by
              simp only [List.take_succ_cons, List.flatten_cons, List.filter_append,
                List.length_append, List.length_map] at hcum ⊢
              omega
            have hrec := ih (docs ++ (page.filter (fun i => !i.pull_request)).map
              (GH.issueToDoc r)) k' hcum'
            simp only [hEq]
            exact Nat.succ_le_succ hrec

/-- The documents the capped issue loop appends are the normalizations of the
non-pull-request items of a prefix of the raw item stream, in arrival
order. -/
theorem issueFetchLoop_order (K pp : Nat) (hK : K ≠ 0) (r : String)
    (pages : List (List GH.IssueRaw)) :
    ∀ docs, ∃ n,
      (GH.issueFetchLoop (some K) pp r pages docs).1 =
        docs ++ ((pages.flatten.take n).filter (fun i => !i.pull_request)).map
          (GH.issueToDoc r) := by
  induction pages with
  | nil => intro docs; exact ⟨0, by simp [GH.issueFetchLoop]⟩
  | cons page rest ih =>
    intro docs
    by_cases he : page.length = 0
    · have hpe : page = [] := List.length_eq_zero.mp he
      subst hpe
      exact ⟨0, by simp [GH.issueFetchLoop]⟩
    · simp only [GH.issueFetchLoop, if_neg he]
      by_cases hb : (GH.issueProcessPage (some K) r page docs).2 = true
      · obtain ⟨t, htle, hteq, -⟩ := issueProcessPage_order K hK r page docs
        rw [if_pos hb]
        refine ⟨t, ?_⟩
        simp only [List.flatten_cons]
        rw [List.take_append_of_le_length htle]
        exact hteq
      · have hbf : (GH.issueProcessPage (some K) r page docs).2 = false := by
          revert hb
          cases (GH.issueProcessPage (some K) r page docs).2 <;> simp
        obtain ⟨t, htle, hteq, htfull⟩ := issueProcessPage_order K hK r page docs
        have hEq : (GH.issueProcessPage (some K) r page docs).1 =
            docs ++ (page.filter (fun i => !i.pull_request)).map (GH.issueToDoc r) := by
          rw [hteq, htfull hbf, List.take_of_length_le (le_refl page.length)]
        rw [if_neg hb]
        by_cases hs : page.length < pp
        · rw [if_pos hs]
          refine ⟨page.length, ?_⟩
          simp only [List.flatten_cons]
          rw [List.take_left]
          exact hEq
        · rw [if_neg hs]
          obtain ⟨n', hn'⟩ := ih
            (docs ++ (page.filter (fun i => !i.pull_request)).map (GH.issueToDoc r))
          refine ⟨page.length + n', ?_⟩
          simp only [List.flatten_cons, hEq]
          rw [List.take_append, hn', List.filter_append, List.map_append,
            List.append_assoc]

/-- C2 counterexample.  With `maxResults = 2` and `perPage = 2` the cap is
reached exactly at the end of the full first page: the run on the first page
alone already returns 2 documents, and the two-page run returns exactly the
same documents (nothing of page 2 is ever emitted) — yet the two-page run
issues 2 page requests.  This refutes the claim's "reaching a configured
maxResults cap stops mid-page with no further page fetched": a further page
is fetched after the cap is reached. -/
theorem pagination_extra_page_counterexample :
    (GH.prFetchLoop (some 2) 2 "o/r" [[mkPRRaw 1, mkPRRaw 2]] []).1.length = 2 ∧
    (GH.prFetchLoop (some 2) 2 "o/r"
        [[mkPRRaw 1, mkPRRaw 2], [mkPRRaw 3, mkPRRaw 4]] []).1 =
      (GH.prFetchLoop (some 2) 2 "o/r" [[mkPRRaw 1, mkPRRaw 2]] []).1 ∧
    (GH.prFetchLoop (some 2) 2 "o/r"
        [[mkPRRaw 1, mkPRRaw 2], [mkPRRaw 3, mkPRRaw 4]] []).2 = 2 := by
  exact ⟨by decide, rfl, by decide⟩

/-- C2 (amended).  Pagination of both list fetchers terminates on the first
of: empty page (stops with none of its items processed), short page (stops
after processing it), or cap break.  The capped run returns exactly the first
`K` documents of the uncapped run (hence at most `K`, in arrival order, no
page fetched twice and never more pages than without the cap), the emitted
documents normalize a prefix of the raw item stream, and — the amendment —
once the cap amount of (for issues: non-pull-request) raw items has arrived
within `k` pages, at most `k + 1` pages are requested: the run fetches one
further page exactly when the cap is reached at the end of a full page, and
otherwise stops mid-page with no further page fetched. -/
theorem pagination_stop_conditions (K pp : Nat) (hK : K ≠ 0) (r : String)
    (prPages : List (List GH.PRRaw)) (issuePages : List (List GH.IssueRaw)) :
    (GH.prFetchLoop (some K) pp r prPages []).1 =
      ((GH.prFetchLoop none pp r prPages []).1).take K ∧
    (GH.prFetchLoop (some K) pp r prPages []).1.length ≤ K ∧
    (∃ n, (GH.prFetchLoop (some K) pp r prPages []).1 =
      (prPages.flatten.take n).map (GH.prToDoc r)) ∧
    (GH.prFetchLoop (some K) pp r prPages []).2 ≤
      (GH.prFetchLoop none pp r prPages []).2 ∧
    (∀ k, K ≤ (prPages.take k).flatten.length →
      (GH.prFetchLoop (some K) pp r prPages []).2 ≤ k + 1) ∧
    (GH.issueFetchLoop (some K) pp r issuePages []).1 =
      ((GH.issueFetchLoop none pp r issuePages []).1).take K ∧
    (GH.issueFetchLoop (some K) pp r issuePages []).1.length ≤ K ∧
    (∃ n, (GH.issueFetchLoop (some K) pp r issuePages []).1 =
      ((issuePages.flatten.take n).filter (fun i => !i.pull_request)).map
        (GH.issueToDoc r)) ∧
    (GH.issueFetchLoop (some K) pp r issuePages []).2 ≤
      (GH.issueFetchLoop none pp r issuePages []).2 ∧
    (∀ k, K ≤ ((issuePages.take k).flatten.filter (fun i => !i.pull_request)).length →
      (GH.issueFetchLoop (some K) pp r issuePages []).2 ≤ k + 1) := by
  refine ⟨prFetchLoop_take K pp hK r prPages [] (by simp), ?_, ?_, ?_, ?_,
    issueFetchLoop_take K pp hK r issuePages [] (by simp), ?_, ?_, ?_, ?_⟩
  · rw [prFetchLoop_take K pp hK r prPages [] (by simp)]
    simp [List.length_take]
  · obtain ⟨n, hn⟩ := prFetchLoop_order K pp hK r prPages []
    exact ⟨n, by simpa using hn⟩
  · exact prFetchLoop_count_le K pp hK r prPages [] (by simp)
  · intro k hk
    exact prFetchLoop_cap_pages K pp hK r prPages [] k (by simpa using hk)
  · rw [issueFetchLoop_take K pp hK r issuePages [] (by simp)]
    simp [List.length_take]
  · obtain ⟨n, hn⟩ := issueFetchLoop_order K pp hK r issuePages []
    exact ⟨n, by simpa using hn⟩
  · exact issueFetchLoop_count_le K pp hK r issuePages [] (by simp)
  · intro k hk
    exact issueFetchLoop_cap_pages K pp hK r issuePages [] k (by simpa using hk)

/-- Witness for C2: the amended statement at a concrete cap and concrete
pages. -/
theorem pagination_stop_conditions_witness :
    (GH.prFetchLoop (some 1) 2 "o/r" [[mkPRRaw 1, mkPRRaw 2]] []).1 =
      ((GH.prFetchLoop none 2 "o/r" [[mkPRRaw 1, mkPRRaw 2]] []).1).take 1 ∧
    (GH.issueFetchLoop (some 1) 2 "o/r"
      [[mkIssueRaw 1 true, mkIssueRaw 2 false]] []).1.length ≤ 1 := by
  have h := pagination_stop_conditions 1 2 (by decide) "o/r"
    [[mkPRRaw 1, mkPRRaw 2]] [[mkIssueRaw 1 true, mkIssueRaw 2 false]]
  exact ⟨h.1, h.2.2.2.2.2.2.1⟩

/-- C4.  The issue fetcher never emits a document for an item flagged as a
pull request: under a cap `K` its output is the normalization of the
non-pull-request items of a prefix of the raw stream, at most `K` long
regardless of how many flagged items are interleaved (skipped items never
count toward the cap), and every emitted document stems from an unflagged raw
item. -/
theorem fetchGitHubIssues_skips_pull_requests (K pp : Nat) (hK : K ≠ 0)
    (r : String) (pages : List (List GH.IssueRaw)) :
    (∃ n, (GH.issueFetchLoop (some K) pp r pages []).1 =
      ((pages.flatten.take n).filter (fun i => !i.pull_request)).map
        (GH.issueToDoc r)) ∧
    (GH.issueFetchLoop (some K) pp r pages []).1.length ≤ K ∧
    (∀ d ∈ (GH.issueFetchLoop (some K) pp r pages []).1,
      ∃ raw, raw ∈ pages.flatten ∧ raw.pull_request = false ∧
        d = GH.issueToDoc r raw) := by
  obtain ⟨n, hn⟩ := issueFetchLoop_order K pp hK r pages []
  have hn' : (GH.issueFetchLoop (some K) pp r pages []).1 =
      ((pages.flatten.take n).filter (fun i => !i.pull_request)).map
        (GH.issueToDoc r) := by simpa using hn
  refine ⟨⟨n, hn'⟩, ?_, ?_⟩
  · rw [issueFetchLoop_take K pp hK r pages [] (by simp)]
    simp [List.length_take]
  · intro d hd
    rw [hn'] at hd
    obtain ⟨raw, hraw, rfl⟩ := List.mem_map.mp hd
    obtain ⟨hmem, hflag⟩ := List.mem_filter.mp hraw
    refine ⟨raw, List.mem_of_mem_take hmem, ?_, rfl⟩
    simpa using hflag

/-- Witness for C4: two flagged items interleaved with two real issues under
`maxResults = 2` still leave at most two documents, all from unflagged
items. -/
theorem fetchGitHubIssues_skips_pull_requests_witness :
    (GH.issueFetchLoop (some 2) 100 "o/r"
      [[mkIssueRaw 1 true, mkIssueRaw 2 false, mkIssueRaw 3 true,
        mkIssueRaw 4 false]] []).1.length ≤ 2 ∧
    (∀ d ∈ (GH.issueFetchLoop (some 2) 100 "o/r"
        [[mkIssueRaw 1 true, mkIssueRaw 2 false, mkIssueRaw 3 true,
          mkIssueRaw 4 false]] []).1,
      ∃ raw, raw ∈ ([[mkIssueRaw 1 true, mkIssueRaw 2 false, mkIssueRaw 3 true,
          mkIssueRaw 4 false]] : List (List GH.IssueRaw)).flatten ∧
        raw.pull_request = false ∧ d = GH.issueToDoc "o/r" raw) := by
  have h := fetchGitHubIssues_skips_pull_requests 2 100 (by decide) "o/r"
    [[mkIssueRaw 1 true, mkIssueRaw 2 false, mkIssueRaw 3 true, mkIssueRaw 4 false]]
  exact ⟨h.2.1, h.2.2⟩

/-- Emit count of the empty trace. -/
theorem emitCount_nil : GH.emitCount [] = 0 := rfl

/-- An `emit` event adds one to the emit count. -/
theorem emitCount_emit (p : String) (t : List GH.FetchEvent) :
    GH.emitCount (GH.FetchEvent.emit p :: t) = GH.emitCount t + 1 := by
  simp [GH.emitCount]

/-- A directory-listing event leaves the emit count unchanged. -/
theorem emitCount_listDir (p : String) (t : List GH.FetchEvent) :
    GH.emitCount (GH.FetchEvent.listDir p :: t) = GH.emitCount t := by
  simp [GH.emitCount]

/-- A file-content event leaves the emit count unchanged. -/
theorem emitCount_getFile (u : String) (t : List GH.FetchEvent) :
    GH.emitCount (GH.FetchEvent.getFile u :: t) = GH.emitCount t := by
  simp [GH.emitCount]

/-- Emit counts add across concatenation. -/
theorem emitCount_append (t1 t2 : List GH.FetchEvent) :
    GH.emitCount (t1 ++ t2) = GH.emitCount t1 + GH.emitCount t2 := by
  simp [GH.emitCount, List.filter_append]

/-- Cutting after more emits than the trace contains changes nothing. -/
theorem cutAfterEmits_of_lt (t : List GH.FetchEvent) :
    ∀ k, GH.emitCount t < k → GH.cutAfterEmits k t = t := by
  induction t with
  | nil => intro k _; rfl
  | cons e t ih =>
    intro k hk
    cases e with
    | emit p =>
      rw [emitCount_emit] at hk
      have h1 : ¬ k ≤ 1 := by omega
      simp only [GH.cutAfterEmits, if_neg h1]
      rw [ih (k - 1) (by omega)]
    | listDir p =>
      rw [emitCount_listDir] at hk
      simp only [GH.cutAfterEmits]
      rw [ih k hk]
    | getFile u =>
      rw [emitCount_getFile] at hk
      simp only [GH.cutAfterEmits]
      rw [ih k hk]

/-- Cutting a concatenation when the first part holds fewer emits than the
budget: the first part passes through whole. -/
theorem cutAfterEmits_append_lt (t1 t2 : List GH.FetchEvent) :
    ∀ k, GH.emitCount t1 < k →
      GH.cutAfterEmits k (t1 ++ t2) =
        t1 ++ GH.cutAfterEmits (k - GH.emitCount t1) t2 := by
  induction t1 with
  | nil => intro k _; simp [emitCount_nil]
  | cons e t ih =>
    intro k hk
    cases e with
    | emit p =>
      rw [emitCount_emit] at hk
      have h1 : ¬ k ≤ 1 := by omega
      simp only [List.cons_append, GH.cutAfterEmits, List.append_eq, if_neg h1]
      rw [ih (k - 1) (by omega), emitCount_emit]
      have : k - 1 - GH.emitCount t = k - (GH.emitCount t + 1) := by omega
      rw [this]
    | listDir p =>
      rw [emitCount_listDir] at hk
      simp only [List.cons_append, GH.cutAfterEmits, List.append_eq]
      rw [ih k hk, emitCount_listDir]
    | getFile u =>
      rw [emitCount_getFile] at hk
      simp only [List.cons_append, GH.cutAfterEmits, List.append_eq]
      rw [ih k hk, emitCount_getFile]

/-- Cutting a concatenation when the first part already holds the budgeted
emits: the second part is never reached. -/
theorem cutAfterEmits_append_ge (t1 t2 : List GH.FetchEvent) :
    ∀ k, 1 ≤ k → k ≤ GH.emitCount t1 →
      GH.cutAfterEmits k (t1 ++ t2) = GH.cutAfterEmits k t1 := by
  induction t1 with
  | nil =>
    intro k hk h
    rw [emitCount_nil] at h
    omega
  | cons e t ih =>
    intro k hk h
    cases e with
    | emit p =>
      rw [emitCount_emit] at h
      by_cases h1 : k ≤ 1
      · simp [GH.cutAfterEmits, h1]
      · simp only [List.cons_append, GH.cutAfterEmits, List.append_eq, if_neg h1]
        rw [ih (k - 1) (by omega) (by omega)]
    | listDir p =>
      rw [emitCount_listDir] at h
      simp only [List.cons_append, GH.cutAfterEmits, List.append_eq]
      rw [ih k hk h]
    | getFile u =>
      rw [emitCount_getFile] at h
      simp only [List.cons_append, GH.cutAfterEmits, List.append_eq]
      rw [ih k hk h]

/-- With the cap already met, the walker processes nothing: it returns at the
cap check of its first entry (or the end of the list), fetching nothing. -/
theorem fdc_capped_stop (K : Nat) (hK : K ≠ 0) (r b : String) (es : List GH.GHEntry)
    (docs : List GH.GHDoc) (h : K ≤ docs.length) :
    GH.fetchDirectoryContents (some K) r b es docs = (docs, []) := by
  cases es with
  | nil => simp [GH.fetchDirectoryContents]
  | cons e rest =>
    have hc : GH.capReached (some K) docs.length = true := by
      rw [capReached_some K _ hK]
      simpa using h
    cases e <;> simp [GH.fetchDirectoryContents, hc]

/-- The uncapped walker ignores its accumulator: it appends a fixed document
list and produces a fixed trace. -/
theorem fdc_none_shift (r b : String) (es : List GH.GHEntry) (docs : List GH.GHDoc) :
    GH.fetchDirectoryContents none r b es docs =
      (docs ++ (GH.fetchDirectoryContents none r b es []).1,
       (GH.fetchDirectoryContents none r b es []).2) :=
  match es with
  | [] => by simp [GH.fetchDirectoryContents]
  | GH.GHEntry.file n p sha hu du sz tx :: rest => by
    by_cases hm : GH.endsWithStr n ".md" = true
    · have h1 := fdc_none_shift r b rest (docs ++ [GH.mdToDoc r b n p sha hu sz tx])
      have h2 := fdc_none_shift r b rest [GH.mdToDoc r b n p sha hu sz tx]
      simp [GH.fetchDirectoryContents, GH.capReached, hm, h1, h2, List.append_assoc]
    · have h1 := fdc_none_shift r b rest docs
      simp [GH.fetchDirectoryContents, GH.capReached, hm, h1]
  | GH.GHEntry.dir n p children :: rest => by
    have hch := fdc_none_shift r b children docs
    have hr1 := fdc_none_shift r b rest
      (docs ++ (GH.fetchDirectoryContents none r b children []).1)
    have hr2 := fdc_none_shift r b rest
      ((GH.fetchDirectoryContents none r b children []).1)
    simp [GH.fetchDirectoryContents, GH.capReached, hch, hr1, hr2, List.append_assoc]
termination_by sizeOf es

/-- Along the uncapped walker's trace, the number of `emit` events equals the
number of documents produced. -/
theorem fdc_none_emitCount (r b : String) (es : List GH.GHEntry) :
    GH.emitCount (GH.fetchDirectoryContents none r b es []).2 =
      (GH.fetchDirectoryContents none r b es []).1.length :=
  match es with
  | [] => by simp [GH.fetchDirectoryContents, emitCount_nil]
  | GH.GHEntry.file n p sha hu du sz tx :: rest => by
    by_cases hm : GH.endsWithStr n ".md" = true
    · have h2 := fdc_none_shift r b rest [GH.mdToDoc r b n p sha hu sz tx]
      have hcnt := fdc_none_emitCount r b rest
      simp [GH.fetchDirectoryContents, GH.capReached, hm, h2, emitCount_getFile,
        emitCount_emit, hcnt]
    · have hcnt := fdc_none_emitCount r b rest
      simp [GH.fetchDirectoryContents, GH.capReached, hm, hcnt]
  | GH.GHEntry.dir n p children :: rest => by
    have hch := fdc_none_emitCount r b children
    have hr := fdc_none_emitCount r b rest
    have hsh := fdc_none_shift r b rest
      ((GH.fetchDirectoryContents none r b children []).1)
    simp [GH.fetchDirectoryContents, GH.capReached, hsh, emitCount_listDir,
      emitCount_append, hch, hr]
termination_by sizeOf es

/-- Under a configured cap the walker behaves exactly like the uncapped
walker cut at the `K`-th emitted document: the documents are the first
`K - |docs|` the uncapped traversal would append, and the trace is the
uncapped trace truncated immediately after the budget's last `emit` — no
fetch and no visit happens beyond it, at any level of the tree. -/
theorem fdc_capped_cut (K : Nat) (hK : K ≠ 0) (r b : String) (es : List GH.GHEntry)
    (docs : List GH.GHDoc) (h : docs.length < K) :
    GH.fetchDirectoryContents (some K) r b es docs =
      ((docs ++ (GH.fetchDirectoryContents none r b es []).1).take K,
       GH.cutAfterEmits (K - docs.length)
         (GH.fetchDirectoryContents none r b es []).2) :=
  match es with
  | [] => by
    simp [GH.fetchDirectoryContents, GH.cutAfterEmits,
      List.take_of_length_le (le_of_lt h)]
  | GH.GHEntry.file n p sha hu du sz tx :: rest => by
    have hcap : ¬ GH.capReached (some K) docs.length = true := by
      rw [capReached_some K _ hK]
      simp
      omega
    by_cases hm : GH.endsWithStr n ".md" = true
    · have hsh := fdc_none_shift r b rest [GH.mdToDoc r b n p sha hu sz tx]
      by_cases hlt : (docs ++ [GH.mdToDoc r b n p sha hu sz tx]).length < K
      · have hrec := fdc_capped_cut K hK r b rest
          (docs ++ [GH.mdToDoc r b n p sha hu sz tx]) hlt
        have hk2 : ¬ K - docs.length ≤ 1 := by
          simp at hlt
          omega
        have harith : K - (docs.length + 1) = K - docs.length - 1 := by
          omega
        have hnone : GH.capReached none 0 = false := rfl
        simp [GH.fetchDirectoryContents, hnone, hcap, hm, hrec, hsh, harith,
          GH.cutAfterEmits, hk2, List.append_assoc]
      · have hKeq : K = docs.length + 1 := by
          simp at hlt
          omega
        have hstop := fdc_capped_stop K hK r b rest
          (docs ++ [GH.mdToDoc r b n p sha hu sz tx]) (by simp; omega)
        have htake : (docs ++ GH.mdToDoc r b n p sha hu sz tx ::
            (GH.fetchDirectoryContents none r b rest []).1).take K =
            docs ++ [GH.mdToDoc r b n p sha hu sz tx] := by
          rw [show docs ++ GH.mdToDoc r b n p sha hu sz tx ::
              (GH.fetchDirectoryContents none r b rest []).1 =
              (docs ++ [GH.mdToDoc r b n p sha hu sz tx]) ++
                (GH.fetchDirectoryContents none r b rest []).1 from by simp,
            List.take_append_of_le_length (by simp; omega),
            List.take_of_length_le (by simp; omega)]
        have hk1 : K - docs.length ≤ 1 := by omega
        have hnone : GH.capReached none 0 = false := rfl
        simp [GH.fetchDirectoryContents, hnone, hcap, hm, hstop, hsh, htake,
          GH.cutAfterEmits, hk1]
    · have hrec := fdc_capped_cut K hK r b rest docs h
      have hnone : GH.capReached none 0 = false := rfl
      simp [GH.fetchDirectoryContents, hnone, hcap, hm, hrec]
  | GH.GHEntry.dir n p children :: rest => by
    have hcap : ¬ GH.capReached (some K) docs.length = true := by
      rw [capReached_some K _ hK]
      simp
      omega
    have hrecCh := fdc_capped_cut K hK r b children docs h
    have hcnt := fdc_none_emitCount r b children
    have hshr := fdc_none_shift r b rest
      ((GH.fetchDirectoryContents none r b children []).1)
    by_cases hXc : docs.length +
        (GH.fetchDirectoryContents none r b children []).1.length < K
    · have htk : (docs ++ (GH.fetchDirectoryContents none r b children []).1).take K =
          docs ++ (GH.fetchDirectoryContents none r b children []).1 := by
        apply List.take_of_length_le
        simp
        omega
      have hrecR := fdc_capped_cut K hK r b rest
        (docs ++ (GH.fetchDirectoryContents none r b children []).1)
        (by simp; omega)
      have hcutTc : GH.cutAfterEmits (K - docs.length)
          (GH.fetchDirectoryContents none r b children []).2 =
          (GH.fetchDirectoryContents none r b children []).2 := by
        apply cutAfterEmits_of_lt
        rw [hcnt]
        omega
      have hcutApp : GH.cutAfterEmits (K - docs.length)
          ((GH.fetchDirectoryContents none r b children []).2 ++
            (GH.fetchDirectoryContents none r b rest []).2) =
          (GH.fetchDirectoryContents none r b children []).2 ++
            GH.cutAfterEmits
              (K - (docs ++ (GH.fetchDirectoryContents none r b children []).1).length)
              (GH.fetchDirectoryContents none r b rest []).2 := by
        rw [cutAfterEmits_append_lt _ _ _ (by rw [hcnt]; omega), hcnt]
        have : K - docs.length -
            (GH.fetchDirectoryContents none r b children []).1.length =
            K - (docs ++ (GH.fetchDirectoryContents none r b children []).1).length := by
          simp
          omega
        rw [this]
      have hnone : GH.capReached none 0 = false := rfl
      simp [GH.fetchDirectoryContents, hnone, hcap, hrecCh, htk, hrecR, hshr,
        GH.cutAfterEmits, hcutTc, hcutApp, List.append_assoc]
    · have hlenK : ((docs ++ (GH.fetchDirectoryContents none r b children []).1).take
          K).length = K := by
        rw [List.length_take]
        simp
        omega
      have hstop := fdc_capped_stop K hK r b rest
        ((docs ++ (GH.fetchDirectoryContents none r b children []).1).take K)
        (le_of_eq hlenK.symm)
      have htk2 : (docs ++ ((GH.fetchDirectoryContents none r b children []).1 ++
          (GH.fetchDirectoryContents none r b rest []).1)).take K =
          (docs ++ (GH.fetchDirectoryContents none r b children []).1).take K := by
        rw [← List.append_assoc, List.take_append_of_le_length (by simp; omega)]
      have hcutge : GH.cutAfterEmits (K - docs.length)
          ((GH.fetchDirectoryContents none r b children []).2 ++
            (GH.fetchDirectoryContents none r b rest []).2) =
          GH.cutAfterEmits (K - docs.length)
            (GH.fetchDirectoryContents none r b children []).2 := by
        apply cutAfterEmits_append_ge
        · omega
        · rw [hcnt]
          omega
      have hnone : GH.capReached none 0 = false := rfl
      simp [GH.fetchDirectoryContents, hnone, hcap, hrecCh, hstop, hshr,
        GH.cutAfterEmits, htk2, hcutge]
termination_by sizeOf es

/-- A cut trace never carries more than its emit budget (for a positive
budget). -/
theorem emitCount_cutAfterEmits_le (t : List GH.FetchEvent) :
    ∀ k, 1 ≤ k → GH.emitCount (GH.cutAfterEmits k t) ≤ k := by
  induction t with
  | nil => intro k _; simp [GH.cutAfterEmits, emitCount_nil]
  | cons e t ih =>
    intro k hk
    cases e with
    | emit p =>
      by_cases h1 : k ≤ 1
      · simp [GH.cutAfterEmits, h1, GH.emitCount]
        omega
      · simp only [GH.cutAfterEmits, if_neg h1]
        rw [emitCount_emit]
        have := ih (k - 1) (by omega)
        omega
    | listDir p =>
      simp only [GH.cutAfterEmits]
      rw [emitCount_listDir]
      exact ih k hk
    | getFile u =>
      simp only [GH.cutAfterEmits]
      rw [emitCount_getFile]
      exact ih k hk

/-- C3.  Hard early exit of the markdown tree walker: with `maxResults = K`
the walker produces exactly the first `K` documents of the uncapped
depth-first traversal (so at most `K`), and its fetch/emit trace is the
uncapped trace cut immediately after the `K`-th emitted document — after the
`K`-th push no further entry is processed and no further listing or file
request is issued, at any level of the tree, not per branch. -/
theorem fetchDirectoryContents_hard_early_exit (K : Nat) (hK : K ≠ 0)
    (r b : String) (root : List GH.GHEntry) :
    (GH.fetchDirectoryContents (some K) r b root []).1 =
      ((GH.fetchDirectoryContents none r b root []).1).take K ∧
    (GH.fetchDirectoryContents (some K) r b root []).1.length ≤ K ∧
    (GH.fetchDirectoryContents (some K) r b root []).2 =
      GH.cutAfterEmits K ((GH.fetchDirectoryContents none r b root []).2) ∧
    GH.emitCount (GH.fetchDirectoryContents (some K) r b root []).2 ≤ K := by
  have h := fdc_capped_cut K hK r b root [] (by simp; omega)
  refine ⟨?_, ?_, ?_, ?_⟩
  · rw [h]
    simp
  · rw [h]
    simp [List.length_take]
  · rw [h]
    simp
  · rw [h]
    simpa using emitCount_cutAfterEmits_le _ K (by omega)

/-- Witness for C3: the walker with cap 1 on the sample tree. -/
theorem fetchDirectoryContents_hard_early_exit_witness :
    (GH.fetchDirectoryContents (some 1) "o/r" "main" sampleTree []).1.length ≤ 1 ∧
    (GH.fetchDirectoryContents (some 1) "o/r" "main" sampleTree []).2 =
      GH.cutAfterEmits 1
        ((GH.fetchDirectoryContents none "o/r" "main" sampleTree []).2) := by
  have h := fetchDirectoryContents_hard_early_exit 1 (by decide) "o/r" "main" sampleTree
  exact ⟨h.2.1, h.2.2.1⟩

/-- `takeWhile` over a list that satisfies the predicate up to a failing
middle element. -/
theorem takeWhile_middle (p : Char → Bool) (l t : List Char) (x : Char)
    (h : ∀ c ∈ l, p c = true) (hx : ¬ p x = true) :
    (l ++ x :: t).takeWhile p = l := by
  induction l with
  | nil => simp [List.takeWhile_cons, hx]
  | cons a as ih =>
    simp only [List.cons_append, List.takeWhile_cons]
    rw [if_pos (h a (by simp))]
    simp only [List.cons.injEq, true_and]
    exact ih (fun c hc => h c (by simp [hc]))

/-- `dropWhile` over a list that satisfies the predicate up to a failing
middle element. -/
theorem dropWhile_middle (p : Char → Bool) (l t : List Char) (x : Char)
    (h : ∀ c ∈ l, p c = true) (hx : ¬ p x = true) :
    (l ++ x :: t).dropWhile p = x :: t := by
  induction l with
  | nil => simp [List.dropWhile_cons, hx]
  | cons a as ih =>
    simp only [List.cons_append, List.dropWhile_cons]
    rw [if_pos (h a (by simp))]
    exact ih (fun c hc => h c (by simp [hc]))

/-- `takeWhile` keeps a list all of whose elements satisfy the predicate. -/
theorem takeWhile_all (p : Char → Bool) (l : List Char)
    (h : ∀ c ∈ l, p c = true) : l.takeWhile p = l := by
  induction l with
  | nil => rfl
  | cons a as ih =>
    simp only [List.takeWhile_cons]
    rw [if_pos (h a (by simp))]
    simp only [List.cons.injEq, true_and]
    exact ih (fun c hc => h c (by simp [hc]))

/-- The head surviving `dropWhile` fails the predicate. -/
theorem dropWhile_head_not (p : Char → Bool) (l : List Char) :
    ∀ y ys, l.dropWhile p = y :: ys → p y = false := by
  induction l with
  | nil => intro y ys h; simp at h
  | cons a as ih =>
    intro y ys h
    by_cases ha : p a = true
    · rw [List.dropWhile_cons, if_pos ha] at h
      exact ih y ys h
    · rw [List.dropWhile_cons, if_neg ha] at h
      injection h with h1 _
      subst h1
      simpa using ha

/-- Soundness of the capture step: a successful capture decomposes its input
as a nonempty slash-free owner run, a slash, a nonempty slash-free (greedy)
repo run, and a residual suffix that is empty or starts with a slash. -/
theorem captureOwnerRepo_sound (cs : List Char) (o r2 : String)
    (h : GH.captureOwnerRepo cs = some (o, r2)) :
    ∃ suf, cs = o.data ++ '/' :: r2.data ++ suf ∧
      o.data ≠ [] ∧ r2.data ≠ [] ∧
      (∀ c ∈ o.data, ¬ c = '/') ∧ (∀ c ∈ r2.data, ¬ c = '/') ∧
      (suf = [] ∨ ∃ t2, suf = '/' :: t2) := by
  unfold GH.captureOwnerRepo at h
  by_cases he : (cs.takeWhile (fun c => !(c = '/'))).isEmpty = true
  · rw [if_pos he] at h
    exact absurd h (by simp)
  · rw [if_neg he] at h
    cases hd : cs.dropWhile (fun c => !(c = '/')) with
    | nil =>
      rw [hd] at h
      exact absurd h (by simp)
    | cons y ys =>
      rw [hd] at h
      have hy : y = '/' := by
        have := dropWhile_head_not (fun c => !(c = '/')) cs y ys hd
        simpa using this
      subst hy
      simp only [] at h
      by_cases hr : (ys.takeWhile (fun c => !(c = '/'))).isEmpty = true
      · rw [if_pos hr] at h
        exact absurd h (by simp)
      · rw [if_neg hr] at h
        simp only [Option.some.injEq, Prod.mk.injEq] at h
        obtain ⟨ho, hr2⟩ := h
        refine ⟨ys.dropWhile (fun c => !(c = '/')), ?_, ?_, ?_, ?_, ?_, ?_⟩
        · rw [← ho, ← hr2]
          conv_lhs => rw [← List.takeWhile_append_dropWhile
            (p := fun c => !(c = '/')) (l := cs), hd]
          rw [show (String.mk (cs.takeWhile (fun c => !(c = '/')))).data =
              cs.takeWhile (fun c => !(c = '/')) from rfl]
          rw [show (String.mk (ys.takeWhile (fun c => !(c = '/')))).data =
              ys.takeWhile (fun c => !(c = '/')) from rfl]
          rw [← List.takeWhile_append_dropWhile
            (p := fun c => !(c = '/')) (l := ys)]
          simp
        · rw [← ho]
          simpa [List.isEmpty_iff] using he
        · rw [← hr2]
          simpa [List.isEmpty_iff] using hr
        · rw [← ho]
          intro c hc
          have := List.mem_takeWhile_imp hc
          simpa using this
        · rw [← hr2]
          intro c hc
          have := List.mem_takeWhile_imp hc
          simpa using this
        · cases hsuf : ys.dropWhile (fun c => !(c = '/')) with
          | nil => exact Or.inl rfl
          | cons z zs =>
            have := dropWhile_head_not (fun c => !(c = '/')) ys z zs hsuf
            have hz : z = '/' := by simpa using this
            exact Or.inr ⟨zs, by rw [hz]⟩

/-- Completeness of the capture step on a canonical owner/repo tail. -/
theorem captureOwnerRepo_complete (o r2 : String)
    (ho : o.data ≠ []) (hr : r2.data ≠ [])
    (ho2 : ∀ c ∈ o.data, ¬ c = '/') (hr2 : ∀ c ∈ r2.data, ¬ c = '/') :
    GH.captureOwnerRepo (o.data ++ '/' :: r2.data) = some (o, r2) := by
  have hp : ∀ c ∈ o.data, (fun c => !(c = '/')) c = true := by
    intro c hc
    simpa using ho2 c hc
  have hp2 : ∀ c ∈ r2.data, (fun c => !(c = '/')) c = true := by
    intro c hc
    simpa using hr2 c hc
  have hx : ¬ (fun c => !(c = '/')) '/' = true := by simp
  have htw := takeWhile_middle (fun c => !(c = '/')) o.data r2.data '/' hp hx
  have hdw := dropWhile_middle (fun c => !(c = '/')) o.data r2.data '/' hp hx
  have htw2 := takeWhile_all (fun c => !(c = '/')) r2.data hp2
  have hoe : (o.data).isEmpty = false := by
    simpa [List.isEmpty_iff] using ho
  have hre : (r2.data).isEmpty = false := by
    simpa [List.isEmpty_iff] using hr
  simp only [GH.captureOwnerRepo, htw, hdw, htw2, hoe, hre]
  simp [show String.mk o.data = o from rfl, show String.mk r2.data = r2 from rfl]

/-- A scan position whose character cannot start the literal `github.com/`
is skipped. -/
theorem regexScan_cons_of_ne (c : Char) (rest : List Char) (hc : ¬ c = 'g') :
    GH.regexScan (c :: rest) = GH.regexScan rest := by
  have hcg : ¬ ('g' = c) := fun h => hc h.symm
  have hneedle : GH.githubSlashNeedle = 'g' :: "ithub.com/".data := by decide
  have hp : GH.githubSlashNeedle.isPrefixOf (c :: rest) = false := by
    rw [hneedle]
    simp [List.isPrefixOf, hcg]
  simp [GH.regexScan, hp]

/-- Scanning right at an occurrence of the literal succeeds with whatever the
capture step yields on the tail. -/
theorem regexScan_at_needle (tail : List Char) (o r2 : String)
    (h : GH.captureOwnerRepo tail = some (o, r2)) :
    GH.regexScan (GH.githubSlashNeedle ++ tail) = some (o, r2) := by
  have hp : GH.githubSlashNeedle.isPrefixOf (GH.githubSlashNeedle ++ tail) = true :=
    List.isPrefixOf_iff_prefix.mpr (List.prefix_append _ _)
  have hdrop : (GH.githubSlashNeedle ++ tail).drop GH.githubSlashNeedle.length = tail :=
    List.drop_left _ _
  have hstep : GH.regexScan (GH.githubSlashNeedle ++ tail) =
      if GH.githubSlashNeedle.isPrefixOf (GH.githubSlashNeedle ++ tail) = true then
        match GH.captureOwnerRepo
            ((GH.githubSlashNeedle ++ tail).drop GH.githubSlashNeedle.length) with
        | some p => some p
        | none => GH.regexScan ("ithub.com/".data ++ tail)
      else GH.regexScan ("ithub.com/".data ++ tail) := rfl
  rw [hstep, if_pos hp, hdrop, h]

/-- Soundness of the leftmost-match scan: a successful parse decomposes the
input around an occurrence of `github.com/` followed by the two captured
segments. -/
theorem regexScan_sound (cs : List Char) :
    ∀ (o r2 : String), GH.regexScan cs = some (o, r2) →
    ∃ pre suf, cs = pre ++ GH.githubSlashNeedle ++ o.data ++ '/' :: r2.data ++ suf ∧
      o.data ≠ [] ∧ r2.data ≠ [] ∧ (∀ c ∈ o.data, ¬ c = '/') ∧
      (∀ c ∈ r2.data, ¬ c = '/') ∧ (suf = [] ∨ ∃ t2, suf = '/' :: t2) := by
  induction cs with
  | nil => intro o r2 h; simp [GH.regexScan] at h
  | cons c rest ih =>
    intro o r2 h
    by_cases hp : GH.githubSlashNeedle.isPrefixOf (c :: rest) = true
    · rw [GH.regexScan, if_pos hp] at h
      cases hcap : GH.captureOwnerRepo ((c :: rest).drop GH.githubSlashNeedle.length) with
      | some pr =>
        rw [hcap] at h
        simp only [Option.some.injEq] at h
        obtain ⟨tail, htail⟩ := List.isPrefixOf_iff_prefix.mp hp
        have hdrop : (c :: rest).drop GH.githubSlashNeedle.length = tail := by
          rw [← htail]
          exact List.drop_left _ _
        rw [hdrop] at hcap
        obtain ⟨suf, hdec, h1, h2, h3, h4, h5⟩ :=
          captureOwnerRepo_sound tail o r2 (by rw [hcap, h])
        refine ⟨[], suf, ?_, h1, h2, h3, h4, h5⟩
        rw [← htail, hdec]
        simp
      | none =>
        rw [hcap] at h
        obtain ⟨pre, suf, hdec, h1, h2, h3, h4, h5⟩ := ih o r2 h
        exact ⟨c :: pre, suf, by rw [hdec]; simp, h1, h2, h3, h4, h5⟩
    · rw [GH.regexScan, if_neg hp] at h
      obtain ⟨pre, suf, hdec, h1, h2, h3, h4, h5⟩ := ih o r2 h
      exact ⟨c :: pre, suf, by rw [hdec]; simp, h1, h2, h3, h4, h5⟩

/-- **C5.** URL parsing and invalid-URL failure.
(1) Soundness: whenever `parseGitHubUrl` succeeds, the url decomposes around an
occurrence of the literal `github.com/` followed by exactly the captured owner
segment, a slash, and the captured repo segment (both nonempty and slash-free;
the repo capture is greedy, so any residue is empty or starts with a slash).
(2) Completeness: every canonical URL `https://github.com/owner/repo` with
nonempty slash-free segments parses to exactly `(owner, repo)`.
(3) Failure: when the first argument contains `github.com` but does not match
the owner/repo pattern, `fetchGitHubPRs` returns the invalid-URL error having
issued zero page requests — the failure is terminal, never a partial result. -/
theorem parseGitHubUrl_spec :
    (∀ (url : String) (o r2 : String), GH.parseGitHubUrl url = some (o, r2) →
      ∃ pre suf,
        url.data = pre ++ GH.githubSlashNeedle ++ o.data ++ '/' :: r2.data ++ suf ∧
        o.data ≠ [] ∧ r2.data ≠ [] ∧
        (∀ c ∈ o.data, ¬ c = '/') ∧ (∀ c ∈ r2.data, ¬ c = '/') ∧
        (suf = [] ∨ ∃ t2, suf = '/' :: t2)) ∧
    (∀ (o r2 : String), o.data ≠ [] → r2.data ≠ [] →
      (∀ c ∈ o.data, ¬ c = '/') → (∀ c ∈ r2.data, ¬ c = '/') →
      GH.parseGitHubUrl ("https://github.com/" ++ o ++ "/" ++ r2) = some (o, r2)) ∧
    (∀ (url repo : String) (opts : GH.FetchOptions) (pages : List (List GH.PRRaw)),
      GH.containsSub GH.githubNeedle url.data = true →
      GH.parseGitHubUrl url = none →
      GH.fetchGitHubPRs url repo opts pages = (Except.error GH.invalidUrlMsg, 0)) := by
  refine ⟨?_, ?_, ?_⟩
  · intro url o r2 h
    exact regexScan_sound url.data o r2 h
  · intro o r2 ho hr ho2 hr2
    have hcap := captureOwnerRepo_complete o r2 ho hr ho2 hr2
    have hurl : ("https://github.com/" ++ o ++ "/" ++ r2).data =
        "https://".data ++ (GH.githubSlashNeedle ++ (o.data ++ '/' :: r2.data)) := by
      rw [String.data_append, String.data_append, String.data_append]
      rw [show ("https://github.com/" : String).data =
          "https://".data ++ GH.githubSlashNeedle from by decide]
      rw [show ("/" : String).data = ['/'] from rfl]
      simp [List.append_assoc]
    show GH.regexScan ("https://github.com/" ++ o ++ "/" ++ r2).data = some (o, r2)
    rw [hurl]
    rw [show ("https://" : String).data ++
        (GH.githubSlashNeedle ++ (o.data ++ '/' :: r2.data)) =
        'h' :: 't' :: 't' :: 'p' :: 's' :: ':' :: '/' :: '/' ::
        (GH.githubSlashNeedle ++ (o.data ++ '/' :: r2.data)) from rfl]
    rw [regexScan_cons_of_ne 'h' _ (by decide), regexScan_cons_of_ne 't' _ (by decide),
      regexScan_cons_of_ne 't' _ (by decide), regexScan_cons_of_ne 'p' _ (by decide),
      regexScan_cons_of_ne 's' _ (by decide), regexScan_cons_of_ne ':' _ (by decide),
      regexScan_cons_of_ne '/' _ (by decide), regexScan_cons_of_ne '/' _ (by decide)]
    exact regexScan_at_needle _ o r2 hcap
  · intro url repo opts pages h1 h2
    simp [GH.fetchGitHubPRs, GH.resolveRepoRef, h1, h2]

/-- Witness for C5: the canonical URL of the langchain repository parses to
exactly its owner and repo segments, and a string containing `github.com` that
does not match the pattern makes the PR fetcher fail terminally with the
invalid-URL error and zero page requests. -/
theorem parseGitHubUrl_spec_witness :
    GH.parseGitHubUrl ("https://github.com/" ++ "langchain-ai" ++ "/" ++ "langchain") =
      some ("langchain-ai", "langchain") ∧
    GH.fetchGitHubPRs "https://github.common" "r" {} [] =
      (Except.error GH.invalidUrlMsg, 0) :=
  ⟨parseGitHubUrl_spec.2.1 "langchain-ai" "langchain"
      (by decide) (by decide) (by decide) (by decide),
   parseGitHubUrl_spec.2.2 "https://github.common" "r" {} []
      (by decide) (by decide)⟩
